import Mathlib

/-!
Verification of the indexing and retrieval engine of `search_email.py`
(google-takeout-utils).

The Python source is shallowly embedded: byte strings become `List Nat`,
the mbox file becomes the list of its lines (Python file iteration yields
the lines of the stream, each non-empty, newline terminators included),
the SQLite `emails` table becomes a list of records, and the SQL
filter / order / limit semantics become list operations.  Calls into the
Python `email` library (header parsing and decoding) are abstracted as
oracle parameters, since their outcome never influences the control flow
being verified beyond success/failure.
-/

namespace SearchEmail

/-- Bytes of the mbox boundary marker prefix `b"From "` tested by
`line.startswith(b"From ")` in `create_index`. -/
def fromMarker : List Nat := [70, 114, 111, 109, 32]

/-- `line.startswith(b"From ")` in `create_index`. -/
def isFromLine (l : List Nat) : Bool := fromMarker.isPrefixOf l

/-- Python `bytes.count(sub)` for a non-empty `sub`: the number of
non-overlapping occurrences, scanning left to right. -/
def countSub (sub : List Nat) (hay : List Nat) : Nat :=
  if h : (!sub.isEmpty && sub.isPrefixOf hay) = true then
    countSub sub (hay.drop sub.length) + 1
  else
    match hay with
    | [] => 0
    | _ :: t => countSub sub t
termination_by hay.length
decreasing_by
  · have hsub : sub ≠ [] := by
      rcases Bool.and_eq_true .. |>.mp h with ⟨h1, _⟩
      simpa using h1
    have hpre : sub <+: hay := by
      rcases Bool.and_eq_true .. |>.mp h with ⟨_, h2⟩
      exact List.isPrefixOf_iff_prefix.mp h2
    have hlen : sub.length ≤ hay.length := hpre.length_le
    have hpos : 0 < sub.length := List.length_pos.mpr hsub
    have hhay : 0 < hay.length := lt_of_lt_of_le hpos hlen
    simp only [List.length_drop]
    omega
  · simp only [List.length_cons]
    omega

/-- Python `bytes.find(sub)`: the index of the first occurrence, `none`
standing for `-1`. -/
def findSub (sub : List Nat) : List Nat → Option Nat
  | [] => if sub.isEmpty then some 0 else none
  | a :: t =>
    if sub.isPrefixOf (a :: t) then some 0
    else (findSub sub t).map (· + 1)

/-- Bytes of `b"Content-Disposition: attachment"`. -/
def attachMarker : List Nat :=
  [67, 111, 110, 116, 101, 110, 116, 45, 68, 105, 115, 112, 111, 115, 105, 116,
   105, 111, 110, 58, 32, 97, 116, 116, 97, 99, 104, 109, 101, 110, 116]

/-- Bytes of `b"Content-Disposition: attachment;"`. -/
def attachMarkerSemi : List Nat := attachMarker ++ [59]

/-- `count_attachments_from_headers` in `search_email.py`. -/
def count_attachments_from_headers (raw : List Nat) : Nat :=
  countSub attachMarker raw + countSub attachMarkerSemi raw

/-- The header slice taken per message in `create_index`: bytes up to the
first `\n\n` (else the first `\r\n\r\n`), else the first 4096 bytes. -/
def headerBytes (raw : List Nat) : List Nat :=
  match findSub [10, 10] raw with
  | some i => raw.take i
  | none =>
    match findSub [13, 10, 13, 10] raw with
    | some i => raw.take i
    | none => raw.take 4096

/-- Header fields produced by the `email`-library calls in the success
path of the per-message `try` block of `create_index`
(`email.message_from_bytes`, `decode_header`, `extract_addresses`,
`parse_date` plus the UTC `strftime`).  They are abstracted as an oracle
`parse : List Nat → Option Headers` applied to the header slice; `none`
models any exception reaching the `except` clause. -/
structure Headers where
  date : String
  date_utc : Option String
  sender : String
  recipient : String
  cc : String
  bcc : String
  subject : String
  message_id : String
  in_reply_to : String
  refs : String
deriving DecidableEq

/-- One row of the `emails` table: the 13 columns inserted by
`create_index`.  The SQLite-assigned integer `id` and the `thread_id`
written later by the union-find pass are handled separately. -/
structure EmailRecord where
  offset : Nat
  size : Nat
  date : Option String
  date_utc : Option String
  sender : String
  recipient : String
  cc : String
  bcc : String
  subject : String
  has_attachments : Bool
  message_id : String
  in_reply_to : String
  refs : String
deriving DecidableEq

/-- The defaulted row appended by the `except` clause of `create_index`:
`(msg_offset, len(raw), None, None, "", "[]", "[]", "[]", "", 0, "", "", "")`. -/
def defaultRecord (off : Nat) (size : Nat) : EmailRecord :=
  { offset := off, size := size, date := none, date_utc := none,
    sender := "", recipient := "[]", cc := "[]", bcc := "[]", subject := "",
    has_attachments := false, message_id := "", in_reply_to := "", refs := "" }

/-- The per-message body of the scan loop of `create_index`: the `try`
block on success, the `except` fallback row on failure. -/
def processMessage (parse : List Nat → Option Headers) (off : Nat) (raw : List Nat) :
    EmailRecord :=
  match parse (headerBytes raw) with
  | some h =>
    { offset := off, size := raw.length, date := some h.date, date_utc := h.date_utc,
      sender := h.sender, recipient := h.recipient, cc := h.cc, bcc := h.bcc,
      subject := h.subject,
      has_attachments := decide (0 < count_attachments_from_headers raw),
      message_id := h.message_id, in_reply_to := h.in_reply_to, refs := h.refs }
  | none => defaultRecord off raw.length

/-- The line loop of `create_index` over the mbox file, given as the list
of its lines.  State: the running byte `offset`, the offset `msgOffset`
of the message being accumulated, and the accumulated lines `buf`; the
trailing `if buf:` block of the source emits the last message. -/
def scanLoop (parse : List Nat → Option Headers) :
    List (List Nat) → Nat → Nat → List (List Nat) → List EmailRecord
  | [], _, msgOffset, buf =>
    if buf.isEmpty then [] else [processMessage parse msgOffset buf.flatten]
  | l :: rest, offset, msgOffset, buf =>
    if isFromLine l && !buf.isEmpty then
      processMessage parse msgOffset buf.flatten ::
        scanLoop parse rest (offset + l.length) offset [l]
    else
      scanLoop parse rest (offset + l.length) msgOffset (buf ++ [l])

/-- The record sequence inserted into the `emails` table by one
`create_index` scan (the 5000-row batching only flushes; row order is
unchanged). -/
def create_index_records (parse : List Nat → Option Headers)
    (lines : List (List Nat)) : List EmailRecord :=
  scanLoop parse lines 0 0 []

/-- The (offset, size) extents emitted by the `create_index` scan. -/
def create_index_extents (parse : List Nat → Option Headers)
    (lines : List (List Nat)) : List (Nat × Nat) :=
  (create_index_records parse lines).map fun r => (r.offset, r.size)

/-- `chainB exts a b`: the extents chain contiguously from byte `a` to
byte `b`: each extent starts exactly where the previous one ended, has
positive size, and the last one ends at `b`.  This captures strictly
increasing offsets, non-overlap and gap-free coverage of `[a, b)`. -/
def chainB : List (Nat × Nat) → Nat → Nat → Bool
  | [], a, b => a == b
  | e :: rest, a, b => e.1 == a && decide (0 < e.2) && chainB rest (a + e.2) b

/-- Concatenation, in order, of the byte ranges `[offset, offset+size)`
of `archive` selected by `exts`. -/
def extractConcat (archive : List Nat) (exts : List (Nat × Nat)) : List Nat :=
  (exts.map fun e => (archive.drop e.1).take e.2).flatten

theorem processMessage_offset (parse : List Nat → Option Headers) (off : Nat)
    (raw : List Nat) : (processMessage parse off raw).offset = off := by
  unfold processMessage
  cases parse (headerBytes raw) <;> rfl

theorem processMessage_size (parse : List Nat → Option Headers) (off : Nat)
    (raw : List Nat) : (processMessage parse off raw).size = raw.length := by
  unfold processMessage
  cases parse (headerBytes raw) <;> rfl

theorem flatten_ne_nil {buf : List (List Nat)} (h : buf ≠ [])
    (hel : ∀ l ∈ buf, l ≠ []) : buf.flatten ≠ [] := by
  intro hflat
  rcases buf with _ | ⟨x, t⟩
  · exact h rfl
  · exact hel x (by simp) (List.flatten_eq_nil_iff.mp hflat x (by simp))

theorem scanLoop_chain (parse : List Nat → Option Headers) :
    ∀ (lines : List (List Nat)) (msgOffset : Nat) (buf : List (List Nat)),
      (∀ l ∈ lines, l ≠ []) → buf ≠ [] → (∀ l ∈ buf, l ≠ []) →
      chainB ((scanLoop parse lines (msgOffset + buf.flatten.length) msgOffset buf).map
          fun r => (r.offset, r.size))
        msgOffset (msgOffset + buf.flatten.length + lines.flatten.length) = true := by
  intro lines
  induction lines with
  | nil =>
    intro msgOffset buf _ hbuf hel
    have hne : buf.flatten ≠ [] := flatten_ne_nil hbuf hel
    have hpos : 0 < buf.flatten.length := List.length_pos.mpr hne
    have hbufE : buf.isEmpty = false := by simpa [List.isEmpty_iff] using hbuf
    simp only [scanLoop, hbufE, Bool.false_eq_true, if_false, List.map_cons,
      List.map_nil, chainB, processMessage_offset, processMessage_size,
      List.flatten_nil, List.length_nil, Nat.add_zero, Bool.and_eq_true,
      beq_iff_eq, decide_eq_true_eq]
    exact ⟨⟨trivial, hpos⟩, trivial⟩
  | cons l rest ih =>
    intro msgOffset buf hlines hbuf hel
    have hlne : l ≠ [] := hlines l (by simp)
    have hrest : ∀ x ∈ rest, x ≠ [] := fun x hx => hlines x (by simp [hx])
    have hbufE : buf.isEmpty = false := by simpa [List.isEmpty_iff] using hbuf
    have hbound : (msgOffset + buf.flatten.length) + (l :: rest).flatten.length =
        msgOffset + buf.flatten.length + l.length + rest.flatten.length := by
      simp only [List.flatten_cons, List.length_append]
      omega
    rw [hbound]
    by_cases hfrom : isFromLine l = true
    · have hne : buf.flatten ≠ [] := flatten_ne_nil hbuf hel
      have hpos : 0 < buf.flatten.length := List.length_pos.mpr hne
      have hcond : (isFromLine l && !buf.isEmpty) = true := by simp [hfrom, hbufE]
      have hstep := ih (msgOffset + buf.flatten.length) [l] hrest (by simp) (by simp [hlne])
      simp only [List.flatten_cons, List.flatten_nil, List.append_nil] at hstep
      simp only [scanLoop, hcond, if_true, List.map_cons, chainB,
        processMessage_offset, processMessage_size, Bool.and_eq_true,
        beq_iff_eq, decide_eq_true_eq]
      exact ⟨⟨trivial, hpos⟩, hstep⟩
    · have hcond : ¬((isFromLine l && !buf.isEmpty) = true) := by
        simp [Bool.and_eq_true]
        intro hc
        exact absurd hc hfrom
      have hstep := ih msgOffset (buf ++ [l]) hrest (by simp)
        (by intro x hx
            rcases List.mem_append.mp hx with hx1 | hx2
            · exact hel x hx1
            · simp only [List.mem_singleton] at hx2
              simpa [hx2] using hlne)
      simp only [List.flatten_append, List.flatten_cons, List.flatten_nil,
        List.append_nil, List.length_append, ← Nat.add_assoc] at hstep
      simp only [scanLoop, if_neg hcond]
      exact hstep

theorem chainB_le : ∀ (exts : List (Nat × Nat)) (a b : Nat),
    chainB exts a b = true → a ≤ b := by
  intro exts
  induction exts with
  | nil =>
    intro a b h
    simp [chainB] at h
    omega
  | cons e rest ih =>
    intro a b h
    simp only [chainB, Bool.and_eq_true, beq_iff_eq, decide_eq_true_eq] at h
    have := ih (a + e.2) b h.2
    omega

theorem chainB_extract : ∀ (exts : List (Nat × Nat)) (a : Nat) (archive : List Nat),
    chainB exts a archive.length = true →
    (exts.map fun e => (archive.drop e.1).take e.2).flatten = archive.drop a := by
  intro exts
  induction exts with
  | nil =>
    intro a archive h
    simp only [chainB, beq_iff_eq] at h
    rw [h, List.drop_length]
    rfl
  | cons e rest ih =>
    intro a archive h
    simp only [chainB, Bool.and_eq_true, beq_iff_eq, decide_eq_true_eq] at h
    obtain ⟨⟨h1, _⟩, h3⟩ := h
    have hrest := ih (a + e.2) archive h3
    simp only [List.map_cons, List.flatten_cons, hrest, h1]
    have : List.drop e.2 (List.drop a archive) = List.drop (a + e.2) archive := by
      rw [List.drop_drop]
    calc (archive.drop a).take e.2 ++ archive.drop (a + e.2)
      = (archive.drop a).take e.2 ++ (archive.drop a).drop e.2 := by rw [this]
    _ = archive.drop a := List.take_append_drop ..

theorem scan_extents_of_lines (parse : List Nat → Option Headers)
    (lines : List (List Nat)) (hl : ∀ l ∈ lines, l ≠ []) :
    chainB (create_index_extents parse lines) 0 lines.flatten.length = true ∧
    extractConcat lines.flatten (create_index_extents parse lines) = lines.flatten := by
  have hchain : chainB (create_index_extents parse lines) 0 lines.flatten.length = true := by
    rcases lines with _ | ⟨l, rest⟩
    · simp [create_index_extents, create_index_records, scanLoop, chainB]
    · have hlne : l ≠ [] := hl l (by simp)
      have hrest : ∀ x ∈ rest, x ≠ [] := fun x hx => hl x (by simp [hx])
      have hstep := scanLoop_chain parse rest 0 [l] hrest (by simp) (by simp [hlne])
      simp only [List.flatten_cons, List.flatten_nil, List.append_nil, Nat.zero_add] at hstep
      have e2 : l.length + rest.flatten.length = (l ++ rest.flatten).length := by
        simp [List.length_append]
      rw [e2] at hstep
      simpa [create_index_extents, create_index_records, scanLoop, isFromLine,
        List.flatten_cons] using hstep
  refine ⟨hchain, ?_⟩
  have := chainB_extract (create_index_extents parse lines) 0 lines.flatten hchain
  simpa [extractConcat] using this

/-- Python binary-file line iteration (`for line in f`): split after every
newline byte; a trailing chunk without a newline is still yielded; no
empty line is ever produced. -/
def splitLinesAux (cur : List Nat) : List Nat → List (List Nat)
  | [] => if cur.isEmpty then [] else [cur.reverse]
  | b :: rest =>
    if b = 10 then (cur.reverse ++ [10]) :: splitLinesAux [] rest
    else splitLinesAux (b :: cur) rest

/-- The lines of an archive byte stream, as Python file iteration yields
them in the scan loop of `create_index`. -/
def splitLines (archive : List Nat) : List (List Nat) := splitLinesAux [] archive

theorem splitLinesAux_flatten :
    ∀ (bs cur : List Nat), (splitLinesAux cur bs).flatten = cur.reverse ++ bs := by
  intro bs
  induction bs with
  | nil =>
    intro cur
    by_cases hc : cur.isEmpty
    · rw [splitLinesAux, if_pos hc]
      have : cur = [] := by simpa [List.isEmpty_iff] using hc
      simp [this]
    · rw [splitLinesAux, if_neg hc]
      simp
  | cons b rest ih =>
    intro cur
    by_cases hb : b = 10
    · rw [splitLinesAux, if_pos hb]
      simp only [List.flatten_cons, ih [] , List.reverse_nil, List.nil_append, hb]
      simp
    · rw [splitLinesAux, if_neg hb]
      rw [ih (b :: cur)]
      simp

theorem splitLinesAux_ne_nil :
    ∀ (bs cur : List Nat), ∀ l ∈ splitLinesAux cur bs, l ≠ [] := by
  intro bs
  induction bs with
  | nil =>
    intro cur l hl
    by_cases hc : cur.isEmpty
    · rw [splitLinesAux, if_pos hc] at hl
      simp at hl
    · rw [splitLinesAux, if_neg hc] at hl
      simp only [List.mem_singleton] at hl
      rw [hl]
      simp [List.isEmpty_iff] at hc
      simpa using hc
  | cons b rest ih =>
    intro cur l hl
    by_cases hb : b = 10
    · rw [splitLinesAux, if_pos hb] at hl
      rcases List.mem_cons.mp hl with hl | hl
      · rw [hl]
        simp
      · exact ih [] l hl
    · rw [splitLinesAux, if_neg hb] at hl
      exact ih (b :: cur) l hl

/-- C1: for every archive byte stream, the (offset, size) extents emitted
by the `create_index` scan chain contiguously from byte 0 to end of
file — one extent per message, non-overlapping, strictly increasing in
offset, gap-free — and concatenating the selected byte ranges in emission
order reproduces the archive's bytes exactly. -/
theorem C1_scan_extents_contiguous (parse : List Nat → Option Headers)
    (archive : List Nat) :
    chainB (create_index_extents parse (splitLines archive)) 0 archive.length = true ∧
    extractConcat archive (create_index_extents parse (splitLines archive)) =
      archive := by
  have hflat : (splitLines archive).flatten = archive := by
    rw [splitLines, splitLinesAux_flatten]
    simp
  have h := scan_extents_of_lines parse (splitLines archive)
    (splitLinesAux_ne_nil archive [])
  rw [hflat] at h
  exact h

/-- C5: a header-decoding or date-parsing failure for an individual
message does not abort the scan.  First conjunct: the emitted extent
sequence — one record per message, each with its offset and size — is the
same whatever the parse oracle does, in particular under arbitrary
failures.  Second conjunct: a message whose header parse fails is still
emitted, with its correct offset and size, every header field defaulted
to empty or absent, and `has_attachments = false`. -/
theorem C5_parse_failure_not_fatal :
    (∀ (parse₁ parse₂ : List Nat → Option Headers) (lines : List (List Nat)),
      (create_index_records parse₁ lines).map (fun r => (r.offset, r.size)) =
        (create_index_records parse₂ lines).map (fun r => (r.offset, r.size))) ∧
    (∀ (parse : List Nat → Option Headers) (off : Nat) (raw : List Nat),
      parse (headerBytes raw) = none →
      processMessage parse off raw = defaultRecord off raw.length) := by
  constructor
  · intro parse₁ parse₂ lines
    suffices h : ∀ (ls : List (List Nat)) (offset msgOffset : Nat) (buf : List (List Nat)),
        (scanLoop parse₁ ls offset msgOffset buf).map (fun r => (r.offset, r.size)) =
          (scanLoop parse₂ ls offset msgOffset buf).map (fun r => (r.offset, r.size)) by
      exact h lines 0 0 []
    intro ls
    induction ls with
    | nil =>
      intro offset msgOffset buf
      by_cases hb : buf.isEmpty
      · simp [scanLoop, hb]
      · simp [scanLoop, hb, processMessage_offset, processMessage_size]
    | cons l rest ih =>
      intro offset msgOffset buf
      by_cases hc : (isFromLine l && !buf.isEmpty) = true
      · simp [scanLoop, hc, processMessage_offset, processMessage_size, ih]
      · simp [scanLoop, hc, ih]
  · intro parse off raw h
    unfold processMessage
    rw [h]

/-- Witness for C5 at a concrete always-failing parse oracle. -/
theorem C5_witness :
    processMessage (fun _ => none) 5 [65, 66, 67] = defaultRecord 5 3 :=
  C5_parse_failure_not_fatal.2 (fun _ => none) 5 [65, 66, 67] rfl

/-! ## MIME model: attachment listing, extraction and body text -/

/-- Python `sub in hay` on byte strings. -/
def isSubBytes (sub : List Nat) : List Nat → Bool
  | [] => sub.isEmpty
  | a :: t => sub.isPrefixOf (a :: t) || isSubBytes sub t

/-- Python `sub in s` on strings (substring containment). -/
def strContains (s sub : String) : Bool :=
  isSubChars sub.data s.data
where
  isSubChars (sub : List Char) : List Char → Bool
    | [] => sub.isEmpty
    | a :: t => sub.isPrefixOf (a :: t) || isSubChars sub t

/-- The attributes of one MIME part read by the walks:
`get_content_type()` (the email library returns it lowercased),
`get("Content-Disposition", "")` (empty when the header is absent),
`get_filename()`, `get_content_charset()` and the decoded payload
`get_payload(decode=True)`. -/
structure PartAttrs where
  contentType : String
  disposition : String
  filename : Option String
  charset : Option String
  payload : Option (List Nat)
deriving DecidableEq

/-- A parsed MIME message as traversed by `get_attachments`,
`extract_attachment` and `get_body_text`: a leaf part or a multipart
container. -/
inductive Msg where
  | leaf (attrs : PartAttrs)
  | multi (attrs : PartAttrs) (parts : List Msg)

def Msg.attrs : Msg → PartAttrs
  | .leaf a => a
  | .multi a _ => a

/-- Python `msg.is_multipart()`. -/
def Msg.isMultipart : Msg → Bool
  | .leaf _ => false
  | .multi _ _ => true

mutual

/-- Python `msg.walk()`: the part itself, then a depth-first walk of the
subparts. -/
def walk : Msg → List Msg
  | .leaf a => [.leaf a]
  | .multi a parts => .multi a parts :: walkList parts

def walkList : List Msg → List Msg
  | [] => []
  | m :: rest => walk m ++ walkList rest

end

/-- The loop body shared by `get_attachments` and `extract_attachment`:
a part counts as an attachment when its Content-Disposition contains
`attachment` or `inline`, except for `text/plain` / `text/html` parts not
explicitly marked `attachment`. -/
def qualifies (p : Msg) : Bool :=
  (strContains p.attrs.disposition "attachment" ||
    strContains p.attrs.disposition "inline") &&
  !((p.attrs.contentType == "text/plain" || p.attrs.contentType == "text/html") &&
    !strContains p.attrs.disposition "attachment")

/-- The entry `(idx, filename, content_type, size)` that `get_attachments`
builds from a qualifying part, `idx` being the number of qualifying parts
seen before it (the entry stores `idx + 1`; an absent filename becomes
`unnamed_{idx}` with the pre-increment counter). -/
def attachmentEntry (dec : String → String) (p : Msg) (idx : Nat) :
    Nat × String × String × Nat :=
  (idx + 1,
    (match p.attrs.filename with
      | some f => dec f
      | none => "unnamed_" ++ toString idx),
    p.attrs.contentType,
    (match p.attrs.payload with
      | some pl => pl.length
      | none => 0))

/-- The `for part in msg.walk()` loop of `get_attachments`, with the
running counter `idx`.  `dec` abstracts `decode_header` applied to the
filename. -/
def gaLoop (dec : String → String) : List Msg → Nat → List (Nat × String × String × Nat)
  | [], _ => []
  | p :: rest, idx =>
    if strContains p.attrs.disposition "attachment" ||
        strContains p.attrs.disposition "inline" then
      if (p.attrs.contentType == "text/plain" || p.attrs.contentType == "text/html") &&
          !strContains p.attrs.disposition "attachment" then
        gaLoop dec rest idx
      else
        attachmentEntry dec p idx :: gaLoop dec rest (idx + 1)
    else gaLoop dec rest idx

/-- `get_attachments` in `search_email.py`. -/
def get_attachments (dec : String → String) (m : Msg) : List (Nat × String × String × Nat) :=
  match m with
  | .leaf _ => []
  | .multi _ _ => gaLoop dec (walk m) 0

/-- The payload-locating walk of `extract_attachment` (`cur_idx` loop):
returns the part at which `cur_idx` reaches `att_idx`. -/
def eaLoop : List Msg → Nat → Nat → Option Msg
  | [], _, _ => none
  | p :: rest, curIdx, attIdx =>
    if strContains p.attrs.disposition "attachment" ||
        strContains p.attrs.disposition "inline" then
      if (p.attrs.contentType == "text/plain" || p.attrs.contentType == "text/html") &&
          !strContains p.attrs.disposition "attachment" then
        eaLoop rest curIdx attIdx
      else if curIdx + 1 == attIdx then some p
      else eaLoop rest (curIdx + 1) attIdx
    else eaLoop rest curIdx attIdx

/-- `extract_attachment` in `search_email.py`, reduced to the part it
extracts: it first looks the ordinal up in `get_attachments` (exiting
with "not found" when absent), then walks the message again with
`cur_idx` to locate the payload. -/
def extract_attachment_part (dec : String → String) (m : Msg) (attIdx : Nat) : Option Msg :=
  match (get_attachments dec m).find? (fun e => e.1 == attIdx) with
  | none => none
  | some _ => eaLoop (walk m) 0 attIdx

theorem gaLoop_cons_pos (dec : String → String) (p : Msg) (rest : List Msg)
    (idx : Nat) (hq : qualifies p = true) :
    gaLoop dec (p :: rest) idx = attachmentEntry dec p idx :: gaLoop dec rest (idx + 1) := by
  have h := hq
  simp only [qualifies, Bool.and_eq_true, Bool.not_eq_true'] at h
  simp [gaLoop, h.1, h.2]

theorem gaLoop_cons_neg (dec : String → String) (p : Msg) (rest : List Msg)
    (idx : Nat) (hq : qualifies p = false) :
    gaLoop dec (p :: rest) idx = gaLoop dec rest idx := by
  cases h1 : (strContains p.attrs.disposition "attachment" ||
      strContains p.attrs.disposition "inline") with
  | false => simp [gaLoop, h1]
  | true =>
    cases h2 : ((p.attrs.contentType == "text/plain" ||
        p.attrs.contentType == "text/html") &&
        !strContains p.attrs.disposition "attachment") with
    | false =>
      exfalso
      simp [qualifies, h1, h2] at hq
    | true => simp [gaLoop, h1, h2]

theorem eaLoop_cons_pos (p : Msg) (rest : List Msg) (curIdx attIdx : Nat)
    (hq : qualifies p = true) :
    eaLoop (p :: rest) curIdx attIdx =
      if curIdx + 1 == attIdx then some p else eaLoop rest (curIdx + 1) attIdx := by
  have h := hq
  simp only [qualifies, Bool.and_eq_true, Bool.not_eq_true'] at h
  simp [eaLoop, h.1, h.2]

theorem eaLoop_cons_neg (p : Msg) (rest : List Msg) (curIdx attIdx : Nat)
    (hq : qualifies p = false) :
    eaLoop (p :: rest) curIdx attIdx = eaLoop rest curIdx attIdx := by
  cases h1 : (strContains p.attrs.disposition "attachment" ||
      strContains p.attrs.disposition "inline") with
  | false => simp [eaLoop, h1]
  | true =>
    cases h2 : ((p.attrs.contentType == "text/plain" ||
        p.attrs.contentType == "text/html") &&
        !strContains p.attrs.disposition "attachment") with
    | false =>
      exfalso
      simp [qualifies, h1, h2] at hq
    | true => simp [eaLoop, h1, h2]

theorem gaLoop_getElem (dec : String → String) :
    ∀ (l : List Msg) (idx n : Nat),
      (gaLoop dec l idx)[n]? =
        ((l.filter qualifies)[n]?).map fun p => attachmentEntry dec p (idx + n) := by
  intro l
  induction l with
  | nil => intro idx n; simp [gaLoop]
  | cons p rest ih =>
    intro idx n
    cases hq : qualifies p with
    | true =>
      rw [gaLoop_cons_pos dec p rest idx hq]
      simp only [List.filter_cons, hq, if_true]
      cases n with
      | zero => simp
      | succ k =>
        simp only [List.getElem?_cons_succ]
        rw [ih (idx + 1) k, show idx + 1 + k = idx + (k + 1) from by omega]
    | false =>
      rw [gaLoop_cons_neg dec p rest idx hq]
      simp only [List.filter_cons, hq, Bool.false_eq_true, if_false]
      exact ih idx n

theorem eaLoop_getElem :
    ∀ (l : List Msg) (curIdx n : Nat),
      eaLoop l curIdx (curIdx + n + 1) = (l.filter qualifies)[n]? := by
  intro l
  induction l with
  | nil => intro curIdx n; simp [eaLoop]
  | cons p rest ih =>
    intro curIdx n
    cases hq : qualifies p with
    | true =>
      rw [eaLoop_cons_pos p rest curIdx (curIdx + n + 1) hq]
      simp only [List.filter_cons, hq, if_true]
      cases n with
      | zero => simp
      | succ k =>
        have hne : (curIdx + 1 == curIdx + (k + 1) + 1) = false := by
          simp only [beq_eq_false_iff_ne, ne_eq]
          omega
        simp only [hne, Bool.false_eq_true, if_false, List.getElem?_cons_succ]
        rw [show curIdx + (k + 1) + 1 = (curIdx + 1) + k + 1 from by omega]
        exact ih (curIdx + 1) k
    | false =>
      rw [eaLoop_cons_neg p rest curIdx (curIdx + n + 1) hq]
      simp only [List.filter_cons, hq, Bool.false_eq_true, if_false]
      exact ih curIdx n

theorem gaLoop_find (dec : String → String) :
    ∀ (l : List Msg) (idx k : Nat),
      (gaLoop dec l idx).find? (fun e => e.1 == k) =
        if idx < k then (gaLoop dec l idx)[k - idx - 1]? else none := by
  intro l
  induction l with
  | nil => intro idx k; simp [gaLoop]
  | cons p rest ih =>
    intro idx k
    cases hq : qualifies p with
    | true =>
      rw [gaLoop_cons_pos dec p rest idx hq]
      by_cases hk : idx + 1 = k
      · have hbeq : ((attachmentEntry dec p idx).1 == k) = true := by
          simp [attachmentEntry, hk]
        simp only [List.find?_cons, hbeq]
        have hlt : idx < k := by omega
        have hidx0 : k - idx - 1 = 0 := by omega
        simp [hlt, hidx0]
      · have hbeq : ((attachmentEntry dec p idx).1 == k) = false := by
          simp [attachmentEntry, hk]
        simp only [List.find?_cons, hbeq]
        rw [ih (idx + 1) k]
        by_cases hlt : idx < k
        · have hlt2 : idx + 1 < k := by omega
          rw [if_pos hlt2, if_pos hlt,
            show k - idx - 1 = (k - (idx + 1) - 1) + 1 from by omega,
            List.getElem?_cons_succ]
        · have hlt2 : ¬(idx + 1 < k) := by omega
          simp [hlt, hlt2]
    | false =>
      rw [gaLoop_cons_neg dec p rest idx hq]
      exact ih idx k

/-- C8: `get_attachments` and the extraction walk of `extract_attachment`
apply the identical skip rule and therefore assign the same 1-based
ordinal to the same MIME part: for every message and ordinal `n + 1`, the
part extracted is exactly the part whose entry sits at (0-based) position
`n` of the listing, with identical index, filename, content type and
size.  (In particular, extraction succeeds precisely when the listing has
an `(n+1)`-th entry.) -/
theorem C8_ordinals_agree (dec : String → String) (m : Msg) (n : Nat) :
    (get_attachments dec m)[n]? =
      (extract_attachment_part dec m (n + 1)).map fun p => attachmentEntry dec p n := by
  cases m with
  | leaf a => simp [get_attachments, extract_attachment_part]
  | multi a parts =>
    have hget := gaLoop_getElem dec (walk (Msg.multi a parts)) 0 n
    have hea := eaLoop_getElem (walk (Msg.multi a parts)) 0 n
    have hfind := gaLoop_find dec (walk (Msg.multi a parts)) 0 (n + 1)
    rw [if_pos (by omega : 0 < n + 1),
      show n + 1 - 0 - 1 = n from by omega] at hfind
    rw [show (0 : Nat) + n = n from by omega] at hget
    rw [show (0 : Nat) + n + 1 = n + 1 from by omega] at hea
    unfold extract_attachment_part
    rw [show get_attachments dec (Msg.multi a parts) =
          gaLoop dec (walk (Msg.multi a parts)) 0 from rfl]
    rw [hfind, hget, hea]
    cases hc : ((walk (Msg.multi a parts)).filter qualifies)[n]? with
    | none => simp [hc]
    | some p => simp [hc]

theorem countSub_pos_of_sub (sub : List Nat) (hsub : sub ≠ []) :
    ∀ (hay : List Nat), isSubBytes sub hay = true → 0 < countSub sub hay := by
  intro hay
  induction hay with
  | nil =>
    intro h
    simp only [isSubBytes, List.isEmpty_iff] at h
    exact absurd h hsub
  | cons a t ih =>
    intro h
    simp only [isSubBytes, Bool.or_eq_true] at h
    by_cases hpre : sub.isPrefixOf (a :: t) = true
    · have hcond : (!sub.isEmpty && sub.isPrefixOf (a :: t)) = true := by
        simp [hpre, List.isEmpty_iff, hsub]
      rw [countSub, dif_pos hcond]
      omega
    · have hrec : isSubBytes sub t = true := by
        rcases h with h | h
        · exact absurd h hpre
        · exact h
      have hcond : ¬((!sub.isEmpty && sub.isPrefixOf (a :: t)) = true) := by
        simp [hpre]
      rw [countSub, dif_neg hcond]
      exact ih hrec

/-- C9: for every non-multipart message the attachment listing is empty;
yet any message whose raw bytes contain the literal substring
`Content-Disposition: attachment` — and whose headers parse — is indexed
with `has_attachments = true`.  A non-multipart message with that
substring therefore has a true index flag and an empty listing. -/
theorem C9_flag_listing_disagree :
    (∀ (dec : String → String) (m : Msg), m.isMultipart = false →
      get_attachments dec m = []) ∧
    (∀ (parse : List Nat → Option Headers) (off : Nat) (raw : List Nat)
        (h : Headers), parse (headerBytes raw) = some h →
      isSubBytes attachMarker raw = true →
      (processMessage parse off raw).has_attachments = true) := by
  constructor
  · intro dec m hm
    cases m with
    | leaf a => rfl
    | multi a parts => simp [Msg.isMultipart] at hm
  · intro parse off raw h hparse hsubst
    have hpos : 0 < countSub attachMarker raw :=
      countSub_pos_of_sub attachMarker (by simp [attachMarker]) raw hsubst
    unfold processMessage
    rw [hparse]
    simp only [decide_eq_true_eq, count_attachments_from_headers]
    omega

/-- Witness for C9: a concrete non-multipart message whose raw bytes are
the disposition marker itself — listing empty, index flag true. -/
theorem C9_witness :
    get_attachments (fun s => s)
        (Msg.leaf ⟨"application/pdf", "attachment", none, none, none⟩) = [] ∧
    (processMessage
        (fun _ => some ⟨"", none, "", "[]", "[]", "[]", "", "", "", ""⟩)
        0 attachMarker).has_attachments = true :=
  ⟨C9_flag_listing_disagree.1 (fun s => s)
      (Msg.leaf ⟨"application/pdf", "attachment", none, none, none⟩) rfl,
   C9_flag_listing_disagree.2
      (fun _ => some ⟨"", none, "", "[]", "[]", "[]", "", "", "", ""⟩)
      0 attachMarker ⟨"", none, "", "[]", "[]", "[]", "", "", "", ""⟩ rfl (by decide)⟩

/-! ## Body text extraction -/

/-- Python `str.lower()` (modelled on the ASCII range, the only range the
dates, markers and patterns of interest use). -/
def strLower (s : String) : String := ⟨s.data.map Char.toLower⟩

/-- The first part of the walk with the given content type and a truthy
(non-empty) decoded payload, as scanned by the two `for part in
msg.walk()` loops of `get_body_text`; returns the payload and charset. -/
def firstTextPayload (ct : String) : List Msg → Option (List Nat × Option String)
  | [] => none
  | p :: rest =>
    if p.attrs.contentType == ct then
      match p.attrs.payload with
      | some pl =>
        if pl.isEmpty then firstTextPayload ct rest else some (pl, p.attrs.charset)
      | none => firstTextPayload ct rest
    else firstTextPayload ct rest

/-- `get_body_text` in `search_email.py`.  `bytesDec` abstracts
`bytes.decode(charset, errors="replace")`. -/
def get_body_text (bytesDec : List Nat → String → String) (m : Msg) : String :=
  match m with
  | .multi _ _ =>
    match firstTextPayload "text/plain" (walk m) with
    | some pc => bytesDec pc.1 (pc.2.getD "utf-8")
    | none =>
      match firstTextPayload "text/html" (walk m) with
      | some pc => bytesDec pc.1 (pc.2.getD "utf-8")
      | none => ""
  | .leaf a =>
    match a.payload with
    | some pl => if pl.isEmpty then "" else bytesDec pl (a.charset.getD "utf-8")
    | none => ""

/-! ## Query engine: `search_index` and the result loop of `run` -/

/-- Lexicographic byte-order comparison of character lists: the SQLite
BINARY collation on TEXT values (the date strings compared here are pure
ASCII, where code-point order and UTF-8 byte order coincide). -/
def lexLeB : List Char → List Char → Bool
  | [], _ => true
  | _ :: _, [] => false
  | a :: as, b :: bs =>
    if a.toNat < b.toNat then true
    else if b.toNat < a.toNat then false
    else lexLeB as bs

/-- SQLite `a <= b` on TEXT. -/
def strLeB (a b : String) : Bool := lexLeB a.data b.data

/-- SQLite `a < b` on TEXT (strict order complementing `strLeB`). -/
def strLtB (a b : String) : Bool := !(strLeB b a)

/-- SQLite comparison of nullable `date_utc` values as used by
`ORDER BY date_utc DESC`: NULL sorts below every TEXT value. -/
def dateUtcLe : Option String → Option String → Bool
  | none, _ => true
  | some _, none => false
  | some a, some b => strLeB a b

/-- The `ORDER BY date_utc DESC` relation on rows. -/
def dateDescRel (a b : EmailRecord) : Prop := dateUtcLe b.date_utc a.date_utc = true

/-- SQLite `LIKE '%pat%' COLLATE NOCASE`: case-insensitive substring
match (NOCASE folds only the ASCII range; LIKE metacharacters inside the
user pattern are not modelled, no claim under audit exercises them). -/
def likeSub (field pat : String) : Bool :=
  strContains (strLower field) (strLower pat)

/-- The query parameters of `search_index` (after `run` has normalised
them): `after`/`before` hold the `YYYY-MM-DD` strings, `body = none`
models a Python-falsy `args.body`, `limit` is `args.limit`. -/
structure SearchArgs where
  after : Option String
  before : Option String
  sender : Option String
  recipient : Option String
  subject : Option String
  has_attachment : Bool
  body : Option String
  limit : Nat
  count : Bool
deriving DecidableEq

/-- The conjunction of WHERE conditions built by `search_index`; a NULL
`date_utc` fails both date comparisons (SQL three-valued logic). -/
def matchesRow (args : SearchArgs) (r : EmailRecord) : Bool :=
  (match args.after with
    | none => true
    | some a =>
      match r.date_utc with
      | none => false
      | some d => strLeB (a ++ " 00:00:00") d) &&
  (match args.before with
    | none => true
    | some b =>
      match r.date_utc with
      | none => false
      | some d => strLtB d (b ++ " 00:00:00")) &&
  (match args.sender with
    | none => true
    | some s => likeSub r.sender s) &&
  (match args.recipient with
    | none => true
    | some s => likeSub r.recipient s || likeSub r.cc s || likeSub r.bcc s) &&
  (match args.subject with
    | none => true
    | some s => likeSub r.subject s) &&
  (!args.has_attachment || r.has_attachments)

theorem lexLeB_total : ∀ (x y : List Char), lexLeB x y = true ∨ lexLeB y x = true := by
  intro x
  induction x with
  | nil => intro y; left; rfl
  | cons a as ih =>
    intro y
    cases y with
    | nil => right; rfl
    | cons b bs =>
      by_cases hab : a.toNat < b.toNat
      · left; simp [lexLeB, hab]
      · by_cases hba : b.toNat < a.toNat
        · right; simp [lexLeB, hba]
        · rcases ih bs with h | h
          · left; simp [lexLeB, hab, hba, h]
          · right; simp [lexLeB, hab, hba, h]

theorem lexLeB_trans : ∀ (x y z : List Char),
    lexLeB x y = true → lexLeB y z = true → lexLeB x z = true := by
  intro x
  induction x with
  | nil => intro y z _ _; rfl
  | cons a as ih =>
    intro y z hxy hyz
    cases y with
    | nil => simp [lexLeB] at hxy
    | cons b bs =>
      cases z with
      | nil => simp [lexLeB] at hyz
      | cons c cs =>
        simp only [lexLeB] at hxy hyz ⊢
        by_cases hab : a.toNat < b.toNat
        · by_cases hbc : b.toNat < c.toNat
          · simp [show a.toNat < c.toNat from by omega]
          · by_cases hcb : c.toNat < b.toNat
            · simp [hbc, hcb] at hyz
            · simp [show a.toNat < c.toNat from by omega]
        · by_cases hba : b.toNat < a.toNat
          · simp [hab, hba] at hxy
          · by_cases hbc : b.toNat < c.toNat
            · simp [show a.toNat < c.toNat from by omega]
            · by_cases hcb : c.toNat < b.toNat
              · simp [hbc, hcb] at hyz
              · have hac : ¬ a.toNat < c.toNat := by omega
                have hca : ¬ c.toNat < a.toNat := by omega
                simp only [hab, hba, if_false] at hxy
                simp only [hbc, hcb, if_false] at hyz
                simp [hac, hca, ih bs cs hxy hyz]

theorem dateUtcLe_total (x y : Option String) :
    dateUtcLe x y = true ∨ dateUtcLe y x = true := by
  cases x with
  | none => left; rfl
  | some a =>
    cases y with
    | none => right; rfl
    | some b => exact lexLeB_total a.data b.data

theorem dateUtcLe_trans (x y z : Option String) (h1 : dateUtcLe x y = true)
    (h2 : dateUtcLe y z = true) : dateUtcLe x z = true := by
  cases x with
  | none => rfl
  | some a =>
    cases y with
    | none => simp [dateUtcLe] at h1
    | some b =>
      cases z with
      | none => simp [dateUtcLe] at h2
      | some c => exact lexLeB_trans a.data b.data c.data h1 h2

instance : DecidableRel dateDescRel := fun a b =>
  inferInstanceAs (Decidable (dateUtcLe b.date_utc a.date_utc = true))

instance : IsTotal EmailRecord dateDescRel :=
  ⟨fun a b => dateUtcLe_total b.date_utc a.date_utc⟩

instance : IsTrans EmailRecord dateDescRel :=
  ⟨fun a b c h1 h2 => dateUtcLe_trans c.date_utc b.date_utc a.date_utc h2 h1⟩

/-- `search_index` in `search_email.py`: WHERE-filter, `ORDER BY date_utc
DESC`, and `LIMIT args.limit` — the LIMIT clause being present only when
neither `--count` nor `--body` is in effect. -/
def search_index (args : SearchArgs) (table : List EmailRecord) : List EmailRecord :=
  let rows := List.insertionSort dateDescRel (table.filter (matchesRow args))
  if !args.count && args.body.isNone then rows.take args.limit else rows

/-- The per-candidate body test of `run`: seek into the mbox
(`readMsg`, `none` modelling a failed `read_msg_at`), extract the body
text and test the lowercased substring. -/
def bodyMatches (readMsg : EmailRecord → Option Msg)
    (bytesDec : List Nat → String → String) (pat : String) (r : EmailRecord) : Bool :=
  match readMsg r with
  | none => false
  | some msg => strContains (strLower (get_body_text bytesDec msg)) (strLower pat)

/-- The `for row in rows` result loop of `run`, with the `found` counter:
when a body filter is in effect, non-matching candidates are skipped;
each emitted row increments `found`; after emitting, the loop breaks once
`found >= args.limit` (unless `--count`). -/
def runLoop (args : SearchArgs) (test : EmailRecord → Bool) :
    List EmailRecord → Nat → List EmailRecord
  | [], _ => []
  | row :: rest, found =>
    if args.body.isSome && !test row then runLoop args test rest found
    else
      row :: (if !args.count && decide (args.limit ≤ found + 1) then []
              else runLoop args test rest (found + 1))

/-- The search path of `run` in `search_email.py`: query the index, then
run the result loop with the body test. -/
def run_results (args : SearchArgs) (readMsg : EmailRecord → Option Msg)
    (bytesDec : List Nat → String → String) (table : List EmailRecord) :
    List EmailRecord :=
  runLoop args
    (fun r =>
      match args.body with
      | none => true
      | some pat => bodyMatches readMsg bytesDec pat r)
    (search_index args table) 0

theorem runLoop_eq_take (args : SearchArgs) (test : EmailRecord → Bool)
    (hbody : args.body.isSome = true) (hcount : args.count = false) :
    ∀ (l : List EmailRecord) (found : Nat), found < args.limit →
      runLoop args test l found = (l.filter test).take (args.limit - found) := by
  intro l
  induction l with
  | nil => intro found _; simp [runLoop]
  | cons row rest ih =>
    intro found hfound
    by_cases htest : test row = true
    · have hcn : ¬((args.body.isSome && !test row) = true) := by simp [htest]
      rw [runLoop, if_neg hcn, List.filter_cons]
      simp only [htest, if_true]
      by_cases hstop : args.limit ≤ found + 1
      · have hcond : (!args.count && decide (args.limit ≤ found + 1)) = true := by
          simp [hcount, hstop]
        have hz : args.limit - found = 1 := by omega
        rw [if_pos hcond, hz]
        simp
      · have hcond : ¬((!args.count && decide (args.limit ≤ found + 1)) = true) := by
          simp [hstop]
        have hz : args.limit - found = (args.limit - (found + 1)) + 1 := by omega
        rw [if_neg hcond, hz, List.take_succ_cons]
        exact congrArg (row :: ·) (ih (found + 1) (by omega))
    · have htestf : test row = false := by simpa using htest
      have hc : (args.body.isSome && !test row) = true := by simp [hbody, htestf]
      rw [runLoop, if_pos hc, List.filter_cons]
      simp only [htestf, Bool.false_eq_true, if_false]
      exact ih found hfound

theorem mem_search_index (args : SearchArgs) (table : List EmailRecord)
    (r : EmailRecord) (h : r ∈ search_index args table) :
    matchesRow args r = true := by
  unfold search_index at h
  set rows := List.insertionSort dateDescRel (table.filter (matchesRow args)) with hrows
  have hmem : r ∈ rows := by
    by_cases hc : (!args.count && args.body.isNone) = true
    · rw [if_pos hc] at h
      exact List.mem_of_mem_take h
    · rwa [if_neg hc] at h
  have := (List.perm_insertionSort dateDescRel (table.filter (matchesRow args))).mem_iff.mp
    (by rwa [hrows] at hmem)
  exact (List.mem_filter.mp this).2

/-- C6: query results are ordered by normalized UTC date descending, a
NULL `date_utc` comparing as the lowest value; consequently once a
dateless record appears every later record is dateless — dateless records
come after every dated one. -/
theorem C6_order_date_desc (args : SearchArgs) (table : List EmailRecord) :
    List.Sorted dateDescRel (search_index args table) ∧
    List.Pairwise (fun a b => a.date_utc = none → b.date_utc = none)
      (search_index args table) := by
  have hsorted : List.Sorted dateDescRel (search_index args table) := by
    unfold search_index
    by_cases hc : (!args.count && args.body.isNone) = true
    · rw [if_pos hc]
      exact (List.sorted_insertionSort dateDescRel _).sublist (List.take_sublist ..)
    · rw [if_neg hc]
      exact List.sorted_insertionSort dateDescRel _
  refine ⟨hsorted, hsorted.imp ?_⟩
  intro a b hab hnone
  unfold dateDescRel at hab
  rw [hnone] at hab
  cases hbdate : b.date_utc with
  | none => rfl
  | some d =>
    rw [hbdate] at hab
    simp [dateUtcLe] at hab

/-- C7: the date-range filter is inclusive at `after`, exclusive at
`before`, both compared against the normalized UTC date; a query
supplying both bounds never returns a record without a parseable date. -/
theorem C7_date_range (args : SearchArgs) (table : List EmailRecord)
    (r : EmailRecord) (a b : String) (ha : args.after = some a)
    (hb : args.before = some b) (hr : r ∈ search_index args table) :
    ∃ d, r.date_utc = some d ∧ strLeB (a ++ " 00:00:00") d = true ∧
      strLtB d (b ++ " 00:00:00") = true := by
  have hm := mem_search_index args table r hr
  unfold matchesRow at hm
  rw [ha, hb] at hm
  cases hd : r.date_utc with
  | none =>
    rw [hd] at hm
    simp at hm
  | some d =>
    rw [hd] at hm
    simp only [Bool.and_eq_true] at hm
    exact ⟨d, rfl, hm.1.1.1.1.1, hm.1.1.1.1.2⟩

/-- Witness for C7 at a one-row table and a both-bounds query. -/
theorem C7_witness :
    ∃ d, ({ offset := 0, size := 1, date := some "x",
            date_utc := some "2020-01-15 10:00:00", sender := "", recipient := "[]",
            cc := "[]", bcc := "[]", subject := "", has_attachments := false,
            message_id := "", in_reply_to := "", refs := "" } :
          EmailRecord).date_utc = some d ∧
      strLeB ("2020-01-01" ++ " 00:00:00") d = true ∧
      strLtB d ("2020-02-01" ++ " 00:00:00") = true :=
  C7_date_range
    { after := some "2020-01-01", before := some "2020-02-01", sender := none,
      recipient := none, subject := none, has_attachment := false, body := none,
      limit := 10, count := false }
    [{ offset := 0, size := 1, date := some "x",
       date_utc := some "2020-01-15 10:00:00", sender := "", recipient := "[]",
       cc := "[]", bcc := "[]", subject := "", has_attachments := false,
       message_id := "", in_reply_to := "", refs := "" }]
    { offset := 0, size := 1, date := some "x",
      date_utc := some "2020-01-15 10:00:00", sender := "", recipient := "[]",
      cc := "[]", bcc := "[]", subject := "", has_attachments := false,
      message_id := "", in_reply_to := "", refs := "" }
    "2020-01-01" "2020-02-01" rfl rfl (by decide)

/-- C3: with a body filter in effect the engine queries the index without
the result limit, tests each candidate body, and applies the limit to the
post-filtered stream: the results are exactly the first `limit` matching
candidates, every returned result satisfies the body test, and the number
of results is `min limit (number of matching candidates)`. -/
theorem C3_body_filter_limit (args : SearchArgs) (readMsg : EmailRecord → Option Msg)
    (bytesDec : List Nat → String → String) (table : List EmailRecord) (pat : String)
    (hbody : args.body = some pat) (hcount : args.count = false)
    (hlim : 0 < args.limit) :
    run_results args readMsg bytesDec table =
      ((search_index args table).filter
        (bodyMatches readMsg bytesDec pat)).take args.limit ∧
    (∀ r ∈ run_results args readMsg bytesDec table,
      bodyMatches readMsg bytesDec pat r = true) ∧
    (run_results args readMsg bytesDec table).length =
      min args.limit
        ((search_index args table).filter (bodyMatches readMsg bytesDec pat)).length := by
  have hsome : args.body.isSome = true := by rw [hbody]; rfl
  have heqfun : (fun r =>
      match args.body with
      | none => true
      | some pat => bodyMatches readMsg bytesDec pat r) =
      bodyMatches readMsg bytesDec pat := by
    funext r
    rw [hbody]
  have hmain : run_results args readMsg bytesDec table =
      ((search_index args table).filter
        (bodyMatches readMsg bytesDec pat)).take args.limit := by
    unfold run_results
    rw [heqfun, runLoop_eq_take args (bodyMatches readMsg bytesDec pat) hsome hcount
      (search_index args table) 0 hlim, Nat.sub_zero]
  refine ⟨hmain, ?_, ?_⟩
  · intro r hr
    rw [hmain] at hr
    exact (List.mem_filter.mp (List.mem_of_mem_take hr)).2
  · rw [hmain, List.length_take]

/-- Witness for C3 at a two-row table where exactly one body matches and
`limit = 1`. -/
theorem C3_witness :
    run_results
        { after := none, before := none, sender := none, recipient := none,
          subject := none, has_attachment := false, body := some "x", limit := 1,
          count := false }
        (fun r => if r.offset == 0 then
            some (Msg.leaf ⟨"text/plain", "", none, none, some [120]⟩)
          else some (Msg.leaf ⟨"text/plain", "", none, none, some [121]⟩))
        (fun bs _ => ⟨bs.map Char.ofNat⟩)
        [{ offset := 0, size := 1, date := none, date_utc := some "2020-01-02 00:00:00",
           sender := "", recipient := "[]", cc := "[]", bcc := "[]", subject := "",
           has_attachments := false, message_id := "", in_reply_to := "", refs := "" },
         { offset := 1, size := 1, date := none, date_utc := some "2020-01-01 00:00:00",
           sender := "", recipient := "[]", cc := "[]", bcc := "[]", subject := "",
           has_attachments := false, message_id := "", in_reply_to := "", refs := "" }] =
      ((search_index
        { after := none, before := none, sender := none, recipient := none,
          subject := none, has_attachment := false, body := some "x", limit := 1,
          count := false }
        [{ offset := 0, size := 1, date := none, date_utc := some "2020-01-02 00:00:00",
           sender := "", recipient := "[]", cc := "[]", bcc := "[]", subject := "",
           has_attachments := false, message_id := "", in_reply_to := "", refs := "" },
         { offset := 1, size := 1, date := none, date_utc := some "2020-01-01 00:00:00",
           sender := "", recipient := "[]", cc := "[]", bcc := "[]", subject := "",
           has_attachments := false, message_id := "", in_reply_to := "", refs := "" }]).filter
        (bodyMatches
          (fun r => if r.offset == 0 then
              some (Msg.leaf ⟨"text/plain", "", none, none, some [120]⟩)
            else some (Msg.leaf ⟨"text/plain", "", none, none, some [121]⟩))
          (fun bs _ => ⟨bs.map Char.ofNat⟩) "x")).take 1 :=
  (C3_body_filter_limit
    { after := none, before := none, sender := none, recipient := none,
      subject := none, has_attachment := false, body := some "x", limit := 1,
      count := false }
    (fun r => if r.offset == 0 then
        some (Msg.leaf ⟨"text/plain", "", none, none, some [120]⟩)
      else some (Msg.leaf ⟨"text/plain", "", none, none, some [121]⟩))
    (fun bs _ => ⟨bs.map Char.ofNat⟩)
    [{ offset := 0, size := 1, date := none, date_utc := some "2020-01-02 00:00:00",
       sender := "", recipient := "[]", cc := "[]", bcc := "[]", subject := "",
       has_attachments := false, message_id := "", in_reply_to := "", refs := "" },
     { offset := 1, size := 1, date := none, date_utc := some "2020-01-01 00:00:00",
       sender := "", recipient := "[]", cc := "[]", bcc := "[]", subject := "",
       has_attachments := false, message_id := "", in_reply_to := "", refs := "" }]
    "x" rfl rfl (by decide)).1

/-! ## Thread resolution: union-find over cleaned message ids -/

/-- Python whitespace test for `str.strip()` (ASCII range). -/
def isSpaceChar (c : Char) : Bool :=
  c.toNat == 32 || c.toNat == 9 || c.toNat == 10 || c.toNat == 13 ||
    c.toNat == 11 || c.toNat == 12

/-- Python `s.strip(chars)`: drop leading and trailing characters
satisfying `f`. -/
def pyStrip (f : Char → Bool) (s : String) : String :=
  ⟨((s.data.dropWhile f).reverse.dropWhile f).reverse⟩

/-- `clean_mid` in `create_index` (and `_clean_mid`):
`mid.strip().strip("<>").strip()`, the empty string for a falsy input. -/
def clean_mid (mid : String) : String :=
  pyStrip isSpaceChar (pyStrip (fun c => c == '<' || c == '>') (pyStrip isSpaceChar mid))

/-- The dict write `parent[x] = v`.  The Python `parent` dict is modelled
as a total function with `parent.get(y, y)` reads, so an absent key reads
as itself; the registration loop `if mid not in parent: parent[mid] =
mid` is then the identity (dict membership is consulted nowhere else). -/
def updParent (p : String → String) (x v : String) : String → String :=
  fun y => if y = x then v else p y

/-- `find` in `create_index`, with path compression.  One iteration of
the `while parent.get(x, x) != x` loop: if `p x = x` the root is found;
otherwise write `parent[x] = parent.get(parent[x], parent[x])` and
continue from that grandparent.  `fuel` bounds the iteration count of the
source's unbounded loop; the pipeline always passes enough fuel (proved
below), so the bound is never hit. -/
def findUF : Nat → (String → String) → String → String × (String → String)
  | 0, p, x => (x, p)
  | fuel + 1, p, x =>
    if p x = x then (x, p)
    else findUF fuel (updParent p x (p (p x))) (p (p x))

/-- `union` in `create_index`: find both roots, and if distinct, hang the
first under the second. -/
def unionUF (fuel : Nat) (p : String → String) (a b : String) : String → String :=
  let fa := findUF fuel p a
  let fb := findUF fuel fa.2 b
  if fa.1 ≠ fb.1 then updParent fb.2 fa.1 fb.1 else fb.2

/-- The `known_mids` set collected by the first loop over the rows. -/
def knownMids (rows : List (Nat × String × String)) : Finset String :=
  rows.foldl
    (fun s r => if clean_mid r.2.1 ≠ "" then insert (clean_mid r.2.1) s else s) ∅

/-- The second loop of the thread pass: union `mid` with `in_reply_to`
when the row has a non-empty cleaned `message_id` and its cleaned
`in_reply_to` is a known message id (`refs` is deliberately unused). -/
def unionPass (fuel : Nat) (known : Finset String) (p : String → String) :
    List (Nat × String × String) → String → String
  | [] => p
  | r :: rest =>
    if clean_mid r.2.1 = "" then unionPass fuel known p rest
    else if clean_mid r.2.2 ≠ "" ∧ clean_mid r.2.2 ∈ known then
      unionPass fuel known (unionUF fuel p (clean_mid r.2.1) (clean_mid r.2.2)) rest
    else unionPass fuel known p rest

/-- The third loop of the thread pass: emit `(thread_id, row_id)` update
pairs, `thread_id` being `find(mid)` for rows with a message id and `""`
otherwise; the `find` calls keep compressing the running parent map. -/
def assignPass (fuel : Nat) (p : String → String) :
    List (Nat × String × String) → List (String × Nat)
  | [] => []
  | r :: rest =>
    if clean_mid r.2.1 = "" then ("", r.1) :: assignPass fuel p rest
    else
      ((findUF fuel p (clean_mid r.2.1)).1, r.1) ::
        assignPass fuel (findUF fuel p (clean_mid r.2.1)).2 rest

/-- The thread-id pass of `create_index`: over the rows of
`SELECT id, message_id, in_reply_to FROM emails`, build `known_mids`,
union along `in_reply_to` links, then emit the `(thread_id, id)` update
batch (the 5000-pair batching only flushes; pair order is unchanged).
The fuel handed to every `find` is `|known_mids| + 1`, enough for any
parent chain arising here (proved below). -/
def compute_thread_ids (rows : List (Nat × String × String)) : List (String × Nat) :=
  assignPass ((knownMids rows).card + 1)
    (unionPass ((knownMids rows).card + 1) (knownMids rows) (fun x => x) rows) rows

/-- Spec-side relation (from the claim): a direct in-reply-to edge
between cleaned message ids whose endpoints both occur in the archive. -/
def midEdge (rows : List (Nat × String × String)) (m1 m2 : String) : Prop :=
  m1 ≠ "" ∧ m2 ∈ knownMids rows ∧
    ∃ r ∈ rows, clean_mid r.2.1 = m1 ∧ clean_mid r.2.2 = m2

/-- The root of `x` under repeated parent dereference (no compression),
fuel-bounded; used to state what `find` computes. -/
def rootUF : Nat → (String → String) → String → String
  | 0, _, x => x
  | fuel + 1, p, x => if p x = x then x else rootUF fuel p (p x)

/-- `r` is the root of `x` in parent map `p`. -/
def IsRootOf (p : String → String) (x r : String) : Prop :=
  (∃ k, p^[k] x = r) ∧ p r = r

/-- Keys and values of the parent map stay inside `K`. -/
def SuppIn (K : Finset String) (p : String → String) : Prop :=
  ∀ x, p x ≠ x → x ∈ K ∧ p x ∈ K

/-- The parent map is a forest (no cycles): some rank strictly drops
along every non-trivial parent link. -/
def Acyc (p : String → String) : Prop :=
  ∃ rk : String → Nat, ∀ x, p x ≠ x → rk (p x) < rk x

/-- The running invariant of the union-find maps. -/
def InvUF (K : Finset String) (p : String → String) : Prop :=
  SuppIn K p ∧ Acyc p

theorem isRootOf_self (p : String → String) (x : String) (h : p x = x) :
    IsRootOf p x x := ⟨⟨0, rfl⟩, h⟩

theorem isRootOf_step (p : String → String) (x r : String)
    (h : IsRootOf p (p x) r) : IsRootOf p x r := by
  obtain ⟨⟨k, hk⟩, hfix⟩ := h
  exact ⟨⟨k + 1, by rw [Function.iterate_succ_apply]; exact hk⟩, hfix⟩

theorem isRootOf_back (p : String → String) (x r : String) (hpx : p x ≠ x)
    (h : IsRootOf p x r) : IsRootOf p (p x) r := by
  obtain ⟨⟨k, hk⟩, hfix⟩ := h
  cases k with
  | zero =>
    exfalso
    simp only [Function.iterate_zero, id] at hk
    subst hk
    exact hpx hfix
  | succ k =>
    exact ⟨⟨k, by rw [← Function.iterate_succ_apply]; exact hk⟩, hfix⟩

theorem isRootOf_fix_eq (p : String → String) (x r : String) (hpx : p x = x)
    (h : IsRootOf p x r) : r = x := by
  obtain ⟨⟨k, hk⟩, _⟩ := h
  rw [Function.iterate_fixed hpx k] at hk
  exact hk.symm

theorem isRootOf_unique (p : String → String) (x r1 r2 : String)
    (h1 : IsRootOf p x r1) (h2 : IsRootOf p x r2) : r1 = r2 := by
  obtain ⟨⟨k1, hk1⟩, hf1⟩ := h1
  obtain ⟨⟨k2, hk2⟩, hf2⟩ := h2
  rcases le_total k1 k2 with h | h
  · have h3 : p^[k2] x = r1 := by
      have he : k2 = (k2 - k1) + k1 := by omega
      rw [he, Function.iterate_add_apply, hk1, Function.iterate_fixed hf1]
    rw [hk2] at h3
    exact h3.symm
  · have h3 : p^[k1] x = r2 := by
      have he : k1 = (k1 - k2) + k2 := by omega
      rw [he, Function.iterate_add_apply, hk2, Function.iterate_fixed hf2]
    rw [hk1] at h3
    exact h3

theorem exists_fix_bound (K : Finset String) (p : String → String)
    (hs : SuppIn K p) (ha : Acyc p) (x : String) :
    ∃ d, d ≤ K.card ∧ p (p^[d] x) = p^[d] x := by
  by_contra hcon
  push_neg at hcon
  obtain ⟨rk, hrk⟩ := ha
  have hmono : ∀ j, j ≤ K.card + 1 → ∀ i, i < j → rk (p^[j] x) < rk (p^[i] x) := by
    intro j
    induction j with
    | zero => intro _ i hi; omega
    | succ n ihn =>
      intro hj i hij
      have hnfix : p (p^[n] x) ≠ p^[n] x := hcon n (by omega)
      have hstep : rk (p^[n + 1] x) < rk (p^[n] x) := by
        rw [Function.iterate_succ_apply']
        exact hrk _ hnfix
      rcases Nat.lt_or_ge i n with h | h
      · exact lt_trans hstep (ihn (by omega) i h)
      · have hin : i = n := by omega
        rw [hin]
        exact hstep
  have hmem : ∀ i : Nat, i ≤ K.card → p^[i + 1] x ∈ K := by
    intro i hi
    have hnfix : p (p^[i] x) ≠ p^[i] x := hcon i hi
    rw [Function.iterate_succ_apply']
    exact (hs _ hnfix).2
  have hinj : Set.InjOn (fun i : Fin (K.card + 1) => p^[(i : Nat) + 1] x)
      ↑(Finset.univ : Finset (Fin (K.card + 1))) := by
    intro i _ j _ hij
    have hij2 : p^[(i : Nat) + 1] x = p^[(j : Nat) + 1] x := hij
    by_contra hne
    have hvne : (i : Nat) ≠ (j : Nat) := fun h => hne (Fin.ext h)
    rcases Nat.lt_or_ge (i : Nat) (j : Nat) with h | h
    · have hm := hmono ((j : Nat) + 1)
        (Nat.succ_le_succ (Nat.lt_succ_iff.mp j.isLt)) ((i : Nat) + 1) (by omega)
      rw [hij2] at hm
      omega
    · have hm := hmono ((i : Nat) + 1)
        (Nat.succ_le_succ (Nat.lt_succ_iff.mp i.isLt)) ((j : Nat) + 1) (by omega)
      rw [hij2] at hm
      omega
  have hcard := Finset.card_le_card_of_injOn
    (fun i : Fin (K.card + 1) => p^[(i : Nat) + 1] x)
    (fun i _ => hmem (i : Nat) (Nat.lt_succ_iff.mp i.isLt)) hinj
  rw [Finset.card_univ, Fintype.card_fin] at hcard
  omega

theorem rootUF_correct : ∀ (fuel : Nat) (p : String → String) (x : String),
    (∃ d, d ≤ fuel ∧ p (p^[d] x) = p^[d] x) → IsRootOf p x (rootUF fuel p x) := by
  intro fuel
  induction fuel with
  | zero =>
    intro p x h
    obtain ⟨d, hd, hfix⟩ := h
    have hd0 : d = 0 := by omega
    subst hd0
    simp only [Function.iterate_zero, id] at hfix
    exact isRootOf_self p x hfix
  | succ n ih =>
    intro p x h
    obtain ⟨d, hd, hfix⟩ := h
    by_cases hpx : p x = x
    · rw [rootUF, if_pos hpx]
      exact isRootOf_self p x hpx
    · have hd0 : d ≠ 0 := by
        intro hd0
        subst hd0
        simp only [Function.iterate_zero, id] at hfix
        exact hpx hfix
      have hnext : ∃ d2, d2 ≤ n ∧ p (p^[d2] (p x)) = p^[d2] (p x) := by
        refine ⟨d - 1, by omega, ?_⟩
        rw [← Function.iterate_succ_apply]
        have he : (d - 1).succ = d := by omega
        rw [he]
        exact hfix
      rw [rootUF, if_neg hpx]
      exact isRootOf_step p x _ (ih p (p x) hnext)

theorem rootUF_isRootOf (K : Finset String) (p : String → String)
    (hInv : InvUF K p) (fuel : Nat) (hfuel : K.card < fuel) (x : String) :
    IsRootOf p x (rootUF fuel p x) := by
  obtain ⟨d, hd, hfix⟩ := exists_fix_bound K p hInv.1 hInv.2 x
  exact rootUF_correct fuel p x ⟨d, by omega, hfix⟩

theorem rootUF_eq_of_isRootOf (K : Finset String) (p : String → String)
    (hInv : InvUF K p) (fuel : Nat) (hfuel : K.card < fuel) (x r : String)
    (h : IsRootOf p x r) : rootUF fuel p x = r :=
  isRootOf_unique p x _ r (rootUF_isRootOf K p hInv fuel hfuel x) h

theorem rootUF_parent (K : Finset String) (p : String → String)
    (hInv : InvUF K p) (fuel : Nat) (hfuel : K.card < fuel) (y : String)
    (hpy : p y ≠ y) : rootUF fuel p (p y) = rootUF fuel p y :=
  rootUF_eq_of_isRootOf K p hInv fuel hfuel (p y) _
    (isRootOf_back p y _ hpy (rootUF_isRootOf K p hInv fuel hfuel y))

theorem rootUF_fix (K : Finset String) (p : String → String)
    (hInv : InvUF K p) (fuel : Nat) (hfuel : K.card < fuel) (x : String) :
    p (rootUF fuel p x) = rootUF fuel p x :=
  (rootUF_isRootOf K p hInv fuel hfuel x).2

theorem roots_iff_of_forward (K : Finset String) (p q : String → String)
    (hp : InvUF K p) (hfwd : ∀ y s, IsRootOf p y s → IsRootOf q y s) :
    ∀ y s, IsRootOf q y s ↔ IsRootOf p y s := by
  intro y s
  constructor
  · intro h2
    obtain ⟨d, _, hfix⟩ := exists_fix_bound K p hp.1 hp.2 y
    have hr : IsRootOf p y (p^[d] y) := ⟨⟨d, rfl⟩, hfix⟩
    have h3 := hfwd y _ hr
    have heqs : s = p^[d] y := isRootOf_unique q y s _ h2 h3
    rw [heqs]
    exact hr
  · exact hfwd y s

theorem rootUF_mem (K : Finset String) (p : String → String)
    (hInv : InvUF K p) (fuel : Nat) (hfuel : K.card < fuel) (x : String)
    (hx : x ∈ K) : rootUF fuel p x ∈ K := by
  obtain ⟨⟨k, hk⟩, _⟩ := rootUF_isRootOf K p hInv fuel hfuel x
  rw [← hk]
  clear hk
  induction k with
  | zero => simpa using hx
  | succ n ihn =>
    rw [Function.iterate_succ_apply']
    by_cases hfix : p (p^[n] x) = p^[n] x
    · rw [hfix]; exact ihn
    · exact (hInv.1 _ hfix).2

theorem findUF_spec (K : Finset String) :
    ∀ (fuel : Nat) (p : String → String) (x : String),
      InvUF K p → (∃ d, d < fuel ∧ p (p^[d] x) = p^[d] x) →
      IsRootOf p x (findUF fuel p x).1 ∧ InvUF K (findUF fuel p x).2 ∧
        (∀ y s, IsRootOf (findUF fuel p x).2 y s ↔ IsRootOf p y s) := by
  intro fuel
  induction fuel with
  | zero =>
    intro p x _ h
    obtain ⟨d, hd, _⟩ := h
    omega
  | succ n ih =>
    intro p x hInv hfix
    by_cases hpx : p x = x
    · have heq : findUF (n + 1) p x = (x, p) := by rw [findUF, if_pos hpx]
      rw [heq]
      exact ⟨isRootOf_self p x hpx, hInv, fun y s => Iff.rfl⟩
    · have heq : findUF (n + 1) p x = findUF n (updParent p x (p (p x))) (p (p x)) := by
        rw [findUF, if_neg hpx]
      obtain ⟨d, hd, hfixd⟩ := hfix
      have hd0 : d ≠ 0 := by
        intro hc
        subst hc
        simp only [Function.iterate_zero, id] at hfixd
        exact hpx hfixd
      have hxK : x ∈ K ∧ p x ∈ K := hInv.1 x hpx
      have hppxK : p (p x) ∈ K := by
        by_cases hfpx : p (p x) = p x
        · rw [hfpx]; exact hxK.2
        · exact (hInv.1 (p x) hfpx).2
      obtain ⟨rk, hrk⟩ := hInv.2
      have hppx_ne : p (p x) ≠ x := by
        intro hcyc
        by_cases hfpx : p (p x) = p x
        · rw [hfpx] at hcyc; exact hpx hcyc
        · have h1 := hrk x hpx
          have h2 := hrk (p x) hfpx
          rw [hcyc] at h2
          omega
      set p2 := updParent p x (p (p x)) with hp2
      have hp2x : p2 x = p (p x) := by simp [hp2, updParent]
      have hp2other : ∀ y, y ≠ x → p2 y = p y := by
        intro y hy
        simp [hp2, updParent, hy]
      have hInv2 : InvUF K p2 := by
        constructor
        · intro y hy
          by_cases hyx : y = x
          · subst hyx
            exact ⟨hxK.1, by rw [hp2x]; exact hppxK⟩
          · rw [hp2other y hyx] at hy ⊢
            exact hInv.1 y hy
        · refine ⟨rk, ?_⟩
          intro y hy
          by_cases hyx : y = x
          · subst hyx
            rw [hp2x]
            by_cases hfpx : p (p y) = p y
            · rw [hfpx]; exact hrk y hpx
            · exact lt_trans (hrk (p y) hfpx) (hrk y hpx)
          · rw [hp2other y hyx] at hy ⊢
            exact hrk y hy
      have fixcase : ∀ y s, p y = y → IsRootOf p y s → IsRootOf p2 y s := by
        intro y s hfy hroot
        have hs := isRootOf_fix_eq p y s hfy hroot
        rw [hs]
        have hyx : y ≠ x := fun h => hpx (h ▸ hfy)
        exact isRootOf_self p2 y (by rw [hp2other y hyx]; exact hfy)
      have forward : ∀ m y s, rk y ≤ m → IsRootOf p y s → IsRootOf p2 y s := by
        intro m
        induction m with
        | zero =>
          intro y s hle hroot
          by_cases hfy : p y = y
          · exact fixcase y s hfy hroot
          · exact absurd (hrk y hfy) (by omega)
        | succ m2 ihm =>
          intro y s hle hroot
          by_cases hfy : p y = y
          · exact fixcase y s hfy hroot
          · have hback := isRootOf_back p y s hfy hroot
            by_cases hyx : y = x
            · subst hyx
              have hppx : IsRootOf p (p (p y)) s := by
                by_cases hfpx : p (p y) = p y
                · rw [hfpx]; exact hback
                · exact isRootOf_back p (p y) s hfpx hback
              have hrkppx : rk (p (p y)) ≤ m2 := by
                by_cases hfpx : p (p y) = p y
                · rw [hfpx]
                  have := hrk y hfy
                  omega
                · have h2 := hrk (p y) hfpx
                  have h1 := hrk y hfy
                  omega
              have h3 := ihm (p (p y)) s hrkppx hppx
              apply isRootOf_step p2 y s
              rw [hp2x]
              exact h3
            · have h3 := ihm (p y) s (by have := hrk y hfy; omega) hback
              apply isRootOf_step p2 y s
              rw [hp2other y hyx]
              exact h3
      have hfwd : ∀ y s, IsRootOf p y s → IsRootOf p2 y s :=
        fun y s h => forward (rk y) y s le_rfl h
      have hiff2 : ∀ y s, IsRootOf p2 y s ↔ IsRootOf p y s :=
        roots_iff_of_forward K p p2 hInv hfwd
      have haux2 : p^[2] x = p (p x) := by
        rw [Function.iterate_succ_apply', Function.iterate_one]
      have hfuel2 : ∃ d2, d2 < n ∧ p2 (p2^[d2] (p (p x))) = p2^[d2] (p (p x)) := by
        by_cases hfpx : p (p x) = p x
        · refine ⟨0, by omega, ?_⟩
          simp only [Function.iterate_zero, id]
          rw [hp2other (p (p x)) hppx_ne, hfpx]
          exact hfpx
        · have hd2 : 2 ≤ d := by
            rcases d with _ | _ | d3
            · exact absurd rfl hd0
            · exfalso
              apply hfpx
              simpa using hfixd
            · omega
          have hnoret : ∀ m, 1 ≤ m → p^[m] x ≠ x := by
            have hch : ∀ m, rk (p^[m + 1] x) ≤ rk (p x) := by
              intro m
              induction m with
              | zero => simp
              | succ m3 ihm3 =>
                rw [Function.iterate_succ_apply']
                by_cases hfz : p (p^[m3 + 1] x) = p^[m3 + 1] x
                · rw [hfz]; exact ihm3
                · exact le_trans (le_of_lt (hrk _ hfz)) ihm3
            intro m hm hcontra
            have h1 := hch (m - 1)
            rw [show m - 1 + 1 = m from by omega, hcontra] at h1
            have := hrk x hpx
            omega
          have htrans : ∀ k, p2^[k] (p (p x)) = p^[k] (p (p x)) := by
            intro k
            induction k with
            | zero => simp
            | succ k3 ihk =>
              rw [Function.iterate_succ_apply', Function.iterate_succ_apply', ihk]
              apply hp2other
              have hz2 : p^[k3] (p (p x)) = p^[k3 + 2] x := by
                rw [← haux2, ← Function.iterate_add_apply]
              rw [hz2]
              exact hnoret (k3 + 2) (by omega)
          refine ⟨d - 2, by omega, ?_⟩
          rw [htrans (d - 2)]
          have hz : p^[d - 2] (p (p x)) = p^[d] x := by
            rw [← haux2, ← Function.iterate_add_apply,
              show d - 2 + 2 = d from by omega]
          rw [hz, hp2other (p^[d] x) (hnoret d (by omega))]
          exact hfixd
      have hIH := ih p2 (p (p x)) hInv2 hfuel2
      rw [heq]
      refine ⟨?_, hIH.2.1, ?_⟩
      · have h1 := hIH.1
        have h2 : IsRootOf p (p (p x)) (findUF n p2 (p (p x))).1 := (hiff2 _ _).mp h1
        apply isRootOf_step p x
        by_cases hfpx : p (p x) = p x
        · revert h2
          generalize (findUF n p2 (p (p x))).1 = r
          intro h2
          rw [hfpx] at h2
          exact h2
        · exact isRootOf_step p (p x) _ h2
      · intro y s
        exact (hIH.2.2 y s).trans (hiff2 y s)

theorem upd_union_forward (K : Finset String) (p : String → String) (ra rb : String)
    (hInv : InvUF K p) (hfa : p ra = ra) (hfb : p rb = rb) (hne : ra ≠ rb) :
    ∀ y s, IsRootOf p y s →
      IsRootOf (updParent p ra rb) y (if s = ra then rb else s) := by
  obtain ⟨rk, hrk⟩ := hInv.2
  have hqra : updParent p ra rb ra = rb := by simp [updParent]
  have hqother : ∀ y, y ≠ ra → updParent p ra rb y = p y := by
    intro y hy
    simp [updParent, hy]
  have hqrb : updParent p ra rb rb = rb := by
    rw [hqother rb (Ne.symm hne)]
    exact hfb
  have fixcase : ∀ y s, p y = y → IsRootOf p y s →
      IsRootOf (updParent p ra rb) y (if s = ra then rb else s) := by
    intro y s hfy hroot
    have hs := isRootOf_fix_eq p y s hfy hroot
    rw [hs]
    by_cases hyra : y = ra
    · rw [if_pos hyra, hyra]
      apply isRootOf_step (updParent p ra rb) ra
      rw [hqra]
      exact isRootOf_self _ rb hqrb
    · rw [if_neg hyra]
      exact isRootOf_self _ y (by rw [hqother y hyra]; exact hfy)
  suffices h : ∀ m y s, rk y ≤ m → IsRootOf p y s →
      IsRootOf (updParent p ra rb) y (if s = ra then rb else s) by
    exact fun y s => h (rk y) y s le_rfl
  intro m
  induction m with
  | zero =>
    intro y s hle hroot
    by_cases hfy : p y = y
    · exact fixcase y s hfy hroot
    · exact absurd (hrk y hfy) (by omega)
  | succ m2 ihm =>
    intro y s hle hroot
    by_cases hfy : p y = y
    · exact fixcase y s hfy hroot
    · have hback := isRootOf_back p y s hfy hroot
      have hyra : y ≠ ra := fun h => hfy (by rw [h]; exact hfa)
      have h3 := ihm (p y) s (by have := hrk y hfy; omega) hback
      apply isRootOf_step (updParent p ra rb) y
      rw [hqother y hyra]
      exact h3

theorem upd_union_inv (K : Finset String) (p : String → String) (ra rb : String)
    (fuel : Nat) (hfuel : K.card < fuel) (hInv : InvUF K p) (hfa : p ra = ra)
    (hfb : p rb = rb) (hne : ra ≠ rb) (hraK : ra ∈ K) (hrbK : rb ∈ K) :
    InvUF K (updParent p ra rb) := by
  constructor
  · intro y hy
    by_cases hyra : y = ra
    · rw [hyra]
      exact ⟨hraK, by simpa [updParent] using hrbK⟩
    · have hqy : updParent p ra rb y = p y := by simp [updParent, hyra]
      rw [hqy] at hy ⊢
      exact hInv.1 y hy
  · obtain ⟨rk, hrk⟩ := hInv.2
    refine ⟨fun y => if rootUF fuel p y = ra then rk y + rk rb + 1 else rk y, ?_⟩
    intro y hy
    by_cases hyra : y = ra
    · have hqy : updParent p ra rb y = rb := by rw [hyra]; simp [updParent]
      rw [hqy, hyra]
      have hrootra : rootUF fuel p ra = ra :=
        rootUF_eq_of_isRootOf K p hInv fuel hfuel ra ra (isRootOf_self p ra hfa)
      have hrootrb : rootUF fuel p rb = rb :=
        rootUF_eq_of_isRootOf K p hInv fuel hfuel rb rb (isRootOf_self p rb hfb)
      simp only [hrootra, hrootrb, if_true]
      rw [if_neg (Ne.symm hne)]
      omega
    · have hqy : updParent p ra rb y = p y := by simp [updParent, hyra]
      rw [hqy] at hy ⊢
      have hroot_eq : rootUF fuel p (p y) = rootUF fuel p y :=
        rootUF_parent K p hInv fuel hfuel y hy
      have hlt := hrk y hy
      simp only [hroot_eq]
      by_cases hb : rootUF fuel p y = ra
      · rw [if_pos hb, if_pos hb]
        omega
      · rw [if_neg hb, if_neg hb]
        omega

theorem unionUF_spec (K : Finset String) (fuel : Nat) (p : String → String)
    (a b : String) (hInv : InvUF K p) (hfuel : K.card < fuel)
    (haK : a ∈ K) (hbK : b ∈ K) :
    InvUF K (unionUF fuel p a b) ∧
    (∀ y s, IsRootOf (unionUF fuel p a b) y s ↔
      ∃ t, IsRootOf p y t ∧
        s = (if t = rootUF fuel p a then rootUF fuel p b else t)) := by
  have hexa : ∃ d, d < fuel ∧ p (p^[d] a) = p^[d] a := by
    obtain ⟨d, hd, hfix⟩ := exists_fix_bound K p hInv.1 hInv.2 a
    exact ⟨d, by omega, hfix⟩
  have hfa := findUF_spec K fuel p a hInv hexa
  have hInvA : InvUF K (findUF fuel p a).2 := hfa.2.1
  have hiffA := hfa.2.2
  have hexb : ∃ d, d < fuel ∧
      (findUF fuel p a).2 ((findUF fuel p a).2^[d] b) = (findUF fuel p a).2^[d] b := by
    obtain ⟨d, hd, hfix⟩ := exists_fix_bound K (findUF fuel p a).2 hInvA.1 hInvA.2 b
    exact ⟨d, by omega, hfix⟩
  have hfb := findUF_spec K fuel (findUF fuel p a).2 b hInvA hexb
  have hInvB : InvUF K (findUF fuel (findUF fuel p a).2 b).2 := hfb.2.1
  have hiffB := hfb.2.2
  have hiffBp : ∀ y s,
      IsRootOf (findUF fuel (findUF fuel p a).2 b).2 y s ↔ IsRootOf p y s :=
    fun y s => (hiffB y s).trans (hiffA y s)
  have hra : IsRootOf p a (findUF fuel p a).1 := hfa.1
  have hrb : IsRootOf p b (findUF fuel (findUF fuel p a).2 b).1 :=
    (hiffA b _).mp hfb.1
  have hra_eq : rootUF fuel p a = (findUF fuel p a).1 :=
    rootUF_eq_of_isRootOf K p hInv fuel hfuel a _ hra
  have hrb_eq : rootUF fuel p b = (findUF fuel (findUF fuel p a).2 b).1 :=
    rootUF_eq_of_isRootOf K p hInv fuel hfuel b _ hrb
  have hfixa2 : (findUF fuel (findUF fuel p a).2 b).2 (findUF fuel p a).1 =
      (findUF fuel p a).1 :=
    ((hiffBp _ _).mpr (isRootOf_self p (findUF fuel p a).1 hra.2)).2
  have hfixb2 : (findUF fuel (findUF fuel p a).2 b).2
        (findUF fuel (findUF fuel p a).2 b).1 =
      (findUF fuel (findUF fuel p a).2 b).1 :=
    ((hiffBp _ _).mpr (isRootOf_self p _ hrb.2)).2
  have hraK : (findUF fuel p a).1 ∈ K := by
    rw [← hra_eq]
    exact rootUF_mem K p hInv fuel hfuel a haK
  have hrbK : (findUF fuel (findUF fuel p a).2 b).1 ∈ K := by
    rw [← hrb_eq]
    exact rootUF_mem K p hInv fuel hfuel b hbK
  by_cases hne : (findUF fuel p a).1 ≠ (findUF fuel (findUF fuel p a).2 b).1
  · have hu : unionUF fuel p a b =
        updParent (findUF fuel (findUF fuel p a).2 b).2 (findUF fuel p a).1
          (findUF fuel (findUF fuel p a).2 b).1 := by
      rw [unionUF, if_pos hne]
    rw [hu]
    have hInvQ := upd_union_inv K (findUF fuel (findUF fuel p a).2 b).2
      (findUF fuel p a).1 (findUF fuel (findUF fuel p a).2 b).1 fuel hfuel hInvB
      hfixa2 hfixb2 hne hraK hrbK
    refine ⟨hInvQ, ?_⟩
    intro y s
    have hforward := upd_union_forward K (findUF fuel (findUF fuel p a).2 b).2
      (findUF fuel p a).1 (findUF fuel (findUF fuel p a).2 b).1 hInvB
      hfixa2 hfixb2 hne
    constructor
    · intro h2
      obtain ⟨d, _, hfix⟩ := exists_fix_bound K p hInv.1 hInv.2 y
      have hty : IsRootOf p y (p^[d] y) := ⟨⟨d, rfl⟩, hfix⟩
      have hty2 := (hiffBp y _).mpr hty
      have h3 := hforward y _ hty2
      have heqs := isRootOf_unique _ y s _ h2 h3
      refine ⟨p^[d] y, hty, ?_⟩
      rw [hra_eq, hrb_eq]
      exact heqs
    · rintro ⟨t, hty, hs⟩
      rw [hra_eq, hrb_eq] at hs
      rw [hs]
      exact hforward y t ((hiffBp y t).mpr hty)
  · have heqr : (findUF fuel p a).1 = (findUF fuel (findUF fuel p a).2 b).1 := by
      by_contra hc
      exact hne hc
    have hu : unionUF fuel p a b = (findUF fuel (findUF fuel p a).2 b).2 := by
      rw [unionUF, if_neg hne]
    rw [hu]
    refine ⟨hInvB, ?_⟩
    intro y s
    have hcollapse : ∀ t : String,
        (if t = rootUF fuel p a then rootUF fuel p b else t) = t := by
      intro t
      by_cases ht : t = rootUF fuel p a
      · rw [if_pos ht, ht, hra_eq, hrb_eq, heqr]
      · rw [if_neg ht]
    rw [hiffBp y s]
    constructor
    · intro h
      exact ⟨s, h, (hcollapse s).symm⟩
    · rintro ⟨t, ht, hs⟩
      rw [hcollapse t] at hs
      rw [hs]
      exact ht

theorem unionUF_rootUF (K : Finset String) (fuel : Nat) (p : String → String)
    (a b : String) (hInv : InvUF K p) (hfuel : K.card < fuel)
    (haK : a ∈ K) (hbK : b ∈ K) :
    ∀ x, rootUF fuel (unionUF fuel p a b) x =
      (if rootUF fuel p x = rootUF fuel p a then rootUF fuel p b
       else rootUF fuel p x) := by
  intro x
  have hq := unionUF_spec K fuel p a b hInv hfuel haK hbK
  have h1 := rootUF_isRootOf K (unionUF fuel p a b) hq.1 fuel hfuel x
  obtain ⟨t, ht, hs⟩ := (hq.2 x _).mp h1
  have ht2 : t = rootUF fuel p x :=
    (rootUF_eq_of_isRootOf K p hInv fuel hfuel x t ht).symm
  rw [hs, ht2]

theorem unionUF_rootEq (K : Finset String) (fuel : Nat) (p : String → String)
    (a b : String) (hInv : InvUF K p) (hfuel : K.card < fuel)
    (haK : a ∈ K) (hbK : b ∈ K) :
    ∀ x y, rootUF fuel (unionUF fuel p a b) x = rootUF fuel (unionUF fuel p a b) y ↔
      (rootUF fuel p x = rootUF fuel p y ∨
        ((rootUF fuel p x = rootUF fuel p a ∨ rootUF fuel p x = rootUF fuel p b) ∧
         (rootUF fuel p y = rootUF fuel p a ∨ rootUF fuel p y = rootUF fuel p b))) := by
  intro x y
  rw [unionUF_rootUF K fuel p a b hInv hfuel haK hbK x,
    unionUF_rootUF K fuel p a b hInv hfuel haK hbK y]
  by_cases h1 : rootUF fuel p x = rootUF fuel p a
  · by_cases h2 : rootUF fuel p y = rootUF fuel p a
    · rw [if_pos h1, if_pos h2]
      constructor
      · intro _
        exact Or.inr ⟨Or.inl h1, Or.inl h2⟩
      · intro _
        rfl
    · rw [if_pos h1, if_neg h2]
      constructor
      · intro h
        exact Or.inr ⟨Or.inl h1, Or.inr h.symm⟩
      · intro h
        rcases h with h | ⟨_, hy⟩
        · exact absurd (h.symm.trans h1) h2
        · rcases hy with hy | hy
          · exact absurd hy h2
          · exact hy.symm
  · by_cases h2 : rootUF fuel p y = rootUF fuel p a
    · rw [if_neg h1, if_pos h2]
      constructor
      · intro h
        exact Or.inr ⟨Or.inr h, Or.inl h2⟩
      · intro h
        rcases h with h | ⟨hx, _⟩
        · exact absurd (h.trans h2) h1
        · rcases hx with hx | hx
          · exact absurd hx h1
          · exact hx
    · rw [if_neg h1, if_neg h2]
      constructor
      · intro h
        left
        exact h
      · intro h
        rcases h with h | ⟨hx, hy⟩
        · exact h
        · rcases hx with hx | hx
          · exact absurd hx h1
          · rcases hy with hy | hy
            · exact absurd hy h2
            · rw [hx, hy]

theorem eqvGen_bind {α : Type} {r s : α → α → Prop}
    (h : ∀ u v, r u v → Relation.EqvGen s u v) :
    ∀ u v, Relation.EqvGen r u v → Relation.EqvGen s u v := by
  intro u v huv
  induction huv with
  | rel a b hab => exact h a b hab
  | refl a => exact Relation.EqvGen.refl a
  | symm a b _ ihab => exact Relation.EqvGen.symm a b ihab
  | trans a b c _ _ ih1 ih2 => exact Relation.EqvGen.trans a b c ih1 ih2

/-- The (mid, in-reply-to) pairs actually passed to `union` by the union
loop, in order. -/
def pairsOf (K : Finset String) (rows : List (Nat × String × String)) :
    List (String × String) :=
  rows.filterMap fun r =>
    if clean_mid r.2.1 ≠ "" ∧ clean_mid r.2.2 ≠ "" ∧ clean_mid r.2.2 ∈ K then
      some (clean_mid r.2.1, clean_mid r.2.2)
    else none

theorem pairsOf_cons (K : Finset String) (r : Nat × String × String)
    (rest : List (Nat × String × String)) :
    pairsOf K (r :: rest) =
      (if clean_mid r.2.1 ≠ "" ∧ clean_mid r.2.2 ≠ "" ∧ clean_mid r.2.2 ∈ K then
        [(clean_mid r.2.1, clean_mid r.2.2)] else []) ++ pairsOf K rest := by
  by_cases hc : clean_mid r.2.1 ≠ "" ∧ clean_mid r.2.2 ≠ "" ∧ clean_mid r.2.2 ∈ K
  · simp [pairsOf, List.filterMap_cons, hc]
  · simp [pairsOf, List.filterMap_cons, hc]

theorem unionPass_spec (K : Finset String) (fuel : Nat) (hfuel : K.card < fuel) :
    ∀ (rows : List (Nat × String × String)) (p : String → String),
      InvUF K p →
      (∀ r ∈ rows, clean_mid r.2.1 ≠ "" → clean_mid r.2.1 ∈ K) →
      InvUF K (unionPass fuel K p rows) ∧
      (∀ x y, rootUF fuel (unionPass fuel K p rows) x =
          rootUF fuel (unionPass fuel K p rows) y ↔
        Relation.EqvGen
          (fun u v => (u, v) ∈ pairsOf K rows ∨ rootUF fuel p u = rootUF fuel p v)
          x y) := by
  intro rows
  induction rows with
  | nil =>
    intro p hInv _
    refine ⟨hInv, ?_⟩
    intro x y
    constructor
    · intro h
      exact Relation.EqvGen.rel x y (Or.inr h)
    · intro h
      induction h with
      | rel u v huv =>
        rcases huv with huv | huv
        · simp [pairsOf] at huv
        · exact huv
      | refl u => rfl
      | symm u v _ ihuv => exact ihuv.symm
      | trans u v w _ _ ih1 ih2 => exact ih1.trans ih2
  | cons r rest ih =>
    intro p hInv hmids
    have hmids2 : ∀ t ∈ rest, clean_mid t.2.1 ≠ "" → clean_mid t.2.1 ∈ K :=
      fun t ht => hmids t (by simp [ht])
    by_cases hmid : clean_mid r.2.1 = ""
    · have hu : unionPass fuel K p (r :: rest) = unionPass fuel K p rest := by
        rw [unionPass, if_pos hmid]
      have hpairs : pairsOf K (r :: rest) = pairsOf K rest := by
        rw [pairsOf_cons, if_neg (fun hc => hc.1 hmid)]
        simp
      rw [hu, hpairs]
      exact ih p hInv hmids2
    · by_cases hguard : clean_mid r.2.2 ≠ "" ∧ clean_mid r.2.2 ∈ K
      · have hu : unionPass fuel K p (r :: rest) =
            unionPass fuel K
              (unionUF fuel p (clean_mid r.2.1) (clean_mid r.2.2)) rest := by
          rw [unionPass, if_neg hmid, if_pos hguard]
        have hpairs : pairsOf K (r :: rest) =
            (clean_mid r.2.1, clean_mid r.2.2) :: pairsOf K rest := by
          rw [pairsOf_cons, if_pos ⟨hmid, hguard⟩]
          rfl
        have hmidK : clean_mid r.2.1 ∈ K := hmids r (by simp) hmid
        have hirtK : clean_mid r.2.2 ∈ K := hguard.2
        have hspec := unionUF_spec K fuel p (clean_mid r.2.1) (clean_mid r.2.2)
          hInv hfuel hmidK hirtK
        have hrootEq := unionUF_rootEq K fuel p (clean_mid r.2.1) (clean_mid r.2.2)
          hInv hfuel hmidK hirtK
        have hIH := ih (unionUF fuel p (clean_mid r.2.1) (clean_mid r.2.2))
          hspec.1 hmids2
        rw [hu, hpairs]
        refine ⟨hIH.1, ?_⟩
        intro x y
        rw [hIH.2 x y]
        constructor
        · apply eqvGen_bind
          intro u v huv
          rcases huv with huv | huv
          · exact Relation.EqvGen.rel u v (Or.inl (by simp [huv]))
          · rw [hrootEq u v] at huv
            rcases huv with huv | ⟨hu2, hv2⟩
            · exact Relation.EqvGen.rel u v (Or.inr huv)
            · have hlink : ∀ w,
                  (rootUF fuel p w = rootUF fuel p (clean_mid r.2.1) ∨
                   rootUF fuel p w = rootUF fuel p (clean_mid r.2.2)) →
                  Relation.EqvGen
                    (fun u2 v2 =>
                      (u2, v2) ∈ (clean_mid r.2.1, clean_mid r.2.2) :: pairsOf K rest ∨
                        rootUF fuel p u2 = rootUF fuel p v2)
                    w (clean_mid r.2.2) := by
                intro w hw
                rcases hw with hw | hw
                · exact Relation.EqvGen.trans _ _ _
                    (Relation.EqvGen.rel _ _ (Or.inr hw))
                    (Relation.EqvGen.rel _ _ (Or.inl (by simp)))
                · exact Relation.EqvGen.rel _ _ (Or.inr hw)
              exact Relation.EqvGen.trans _ _ _ (hlink u hu2)
                (Relation.EqvGen.symm _ _ (hlink v hv2))
        · apply eqvGen_bind
          intro u v huv
          rcases huv with huv | huv
          · rcases List.mem_cons.mp huv with huv | huv
            · have huvm : u = clean_mid r.2.1 ∧ v = clean_mid r.2.2 := by
                constructor
                · exact congrArg Prod.fst huv
                · exact congrArg Prod.snd huv
              have hroot2 : rootUF fuel
                  (unionUF fuel p (clean_mid r.2.1) (clean_mid r.2.2)) u =
                  rootUF fuel
                    (unionUF fuel p (clean_mid r.2.1) (clean_mid r.2.2)) v := by
                rw [hrootEq u v]
                exact Or.inr ⟨Or.inl (by rw [huvm.1]), Or.inr (by rw [huvm.2])⟩
              exact Relation.EqvGen.rel u v (Or.inr hroot2)
            · exact Relation.EqvGen.rel u v (Or.inl huv)
          · have hroot2 : rootUF fuel
                (unionUF fuel p (clean_mid r.2.1) (clean_mid r.2.2)) u =
                rootUF fuel (unionUF fuel p (clean_mid r.2.1) (clean_mid r.2.2)) v := by
              rw [hrootEq u v]
              exact Or.inl huv
            exact Relation.EqvGen.rel u v (Or.inr hroot2)
      · have hu : unionPass fuel K p (r :: rest) = unionPass fuel K p rest := by
          rw [unionPass, if_neg hmid, if_neg hguard]
        have hpairs : pairsOf K (r :: rest) = pairsOf K rest := by
          rw [pairsOf_cons, if_neg (fun hc => hguard hc.2)]
          simp
        rw [hu, hpairs]
        exact ih p hInv hmids2

theorem assignPass_spec (K : Finset String) (fuel : Nat) (hfuel : K.card < fuel) :
    ∀ (rows : List (Nat × String × String)) (p : String → String), InvUF K p →
      assignPass fuel p rows = rows.map (fun t =>
        (if clean_mid t.2.1 = "" then "" else rootUF fuel p (clean_mid t.2.1), t.1)) := by
  intro rows
  induction rows with
  | nil => intro p _; rfl
  | cons r rest ihr =>
    intro p hInv
    by_cases hmid : clean_mid r.2.1 = ""
    · rw [assignPass, if_pos hmid, List.map_cons]
      congr 1
      · simp [hmid]
      · exact ihr p hInv
    · have hex : ∃ d, d < fuel ∧
          p (p^[d] (clean_mid r.2.1)) = p^[d] (clean_mid r.2.1) := by
        obtain ⟨d, hd, hfix⟩ := exists_fix_bound K p hInv.1 hInv.2 (clean_mid r.2.1)
        exact ⟨d, by omega, hfix⟩
      have hspec := findUF_spec K fuel p (clean_mid r.2.1) hInv hex
      have h1 : (findUF fuel p (clean_mid r.2.1)).1 =
          rootUF fuel p (clean_mid r.2.1) :=
        (rootUF_eq_of_isRootOf K p hInv fuel hfuel _ _ hspec.1).symm
      have hroots : ∀ z,
          rootUF fuel (findUF fuel p (clean_mid r.2.1)).2 z = rootUF fuel p z := by
        intro z
        apply rootUF_eq_of_isRootOf K _ hspec.2.1 fuel hfuel
        exact (hspec.2.2 z _).mpr (rootUF_isRootOf K p hInv fuel hfuel z)
      rw [assignPass, if_neg hmid, List.map_cons]
      congr 1
      · rw [h1]
        simp [hmid]
      · rw [ihr (findUF fuel p (clean_mid r.2.1)).2 hspec.2.1]
        have hfun : (fun t : Nat × String × String =>
            (if clean_mid t.2.1 = "" then ""
             else rootUF fuel (findUF fuel p (clean_mid r.2.1)).2 (clean_mid t.2.1),
             t.1)) = (fun t =>
            (if clean_mid t.2.1 = "" then "" else rootUF fuel p (clean_mid t.2.1),
             t.1)) := by
          funext t
          by_cases ht : clean_mid t.2.1 = ""
          · simp [ht]
          · simp [ht, hroots]
        rw [hfun]

theorem knownMids_mem_aux :
    ∀ (rows : List (Nat × String × String)) (s : Finset String) (x : String),
      (x ∈ rows.foldl
        (fun s r => if clean_mid r.2.1 ≠ "" then insert (clean_mid r.2.1) s else s)
        s) ↔
      x ∈ s ∨ (x ≠ "" ∧ ∃ r ∈ rows, clean_mid r.2.1 = x) := by
  intro rows
  induction rows with
  | nil =>
    intro s x
    simp
  | cons r rest ihr =>
    intro s x
    rw [List.foldl_cons]
    by_cases hmid : clean_mid r.2.1 ≠ ""
    · rw [if_pos hmid, ihr]
      simp only [Finset.mem_insert, List.mem_cons]
      constructor
      · rintro (⟨h | h⟩ | ⟨hx, t, ht, hclean⟩)
        · exact Or.inr ⟨h ▸ hmid, r, Or.inl rfl, h.symm⟩
        · exact Or.inl h
        · exact Or.inr ⟨hx, t, Or.inr ht, hclean⟩
      · rintro (h | ⟨hx, t, ht, hclean⟩)
        · exact Or.inl (Or.inr h)
        · rcases ht with ht | ht
          · exact Or.inl (Or.inl (by rw [← hclean, ht]))
          · exact Or.inr ⟨hx, t, ht, hclean⟩
    · rw [if_neg hmid, ihr]
      have hmid2 : clean_mid r.2.1 = "" := by simpa using hmid
      simp only [List.mem_cons]
      constructor
      · rintro (h | ⟨hx, t, ht, hclean⟩)
        · exact Or.inl h
        · exact Or.inr ⟨hx, t, Or.inr ht, hclean⟩
      · rintro (h | ⟨hx, t, ht, hclean⟩)
        · exact Or.inl h
        · rcases ht with ht | ht
          · exfalso
            rw [ht, hmid2] at hclean
            exact hx hclean.symm
          · exact Or.inr ⟨hx, t, ht, hclean⟩

theorem knownMids_mem (rows : List (Nat × String × String)) (x : String) :
    x ∈ knownMids rows ↔ x ≠ "" ∧ ∃ r ∈ rows, clean_mid r.2.1 = x := by
  rw [knownMids, knownMids_mem_aux]
  simp

theorem invUF_id (K : Finset String) : InvUF K (fun x => x) :=
  ⟨fun _ hx => absurd rfl hx, ⟨fun _ => 0, fun _ hx => absurd rfl hx⟩⟩

theorem rootUF_id (fuel : Nat) (x : String) :
    rootUF (fuel + 1) (fun y => y) x = x := by
  rw [rootUF]
  simp

theorem knownMids_precond (rows : List (Nat × String × String)) :
    ∀ r ∈ rows, clean_mid r.2.1 ≠ "" → clean_mid r.2.1 ∈ knownMids rows :=
  fun r hr hne => (knownMids_mem rows _).mpr ⟨hne, r, hr, rfl⟩

theorem pairsOf_mem_iff (rows : List (Nat × String × String)) (u v : String) :
    (u, v) ∈ pairsOf (knownMids rows) rows ↔ midEdge rows u v := by
  rw [pairsOf, List.mem_filterMap]
  constructor
  · rintro ⟨r, hr, hfr⟩
    by_cases hc : clean_mid r.2.1 ≠ "" ∧ clean_mid r.2.2 ≠ "" ∧
        clean_mid r.2.2 ∈ knownMids rows
    · rw [if_pos hc] at hfr
      have hu : clean_mid r.2.1 = u := congrArg Prod.fst (Option.some.inj hfr)
      have hv : clean_mid r.2.2 = v := congrArg Prod.snd (Option.some.inj hfr)
      exact ⟨hu ▸ hc.1, hv ▸ hc.2.2, r, hr, hu, hv⟩
    · rw [if_neg hc] at hfr
      exact absurd hfr (by simp)
  · rintro ⟨hu, hv, r, hr, hmid, hirt⟩
    refine ⟨r, hr, ?_⟩
    have hvne : v ≠ "" := ((knownMids_mem rows v).mp hv).1
    rw [if_pos ⟨hmid ▸ hu, hirt ▸ hvne, hirt ▸ hv⟩, hmid, hirt]

theorem rootEq_iff_connected (rows : List (Nat × String × String)) :
    ∀ x y,
      rootUF ((knownMids rows).card + 1)
          (unionPass ((knownMids rows).card + 1) (knownMids rows) (fun z => z) rows)
          x =
        rootUF ((knownMids rows).card + 1)
          (unionPass ((knownMids rows).card + 1) (knownMids rows) (fun z => z) rows)
          y ↔
      Relation.EqvGen (midEdge rows) x y := by
  intro x y
  have hfuel : (knownMids rows).card < (knownMids rows).card + 1 := by omega
  have hUP := unionPass_spec (knownMids rows) ((knownMids rows).card + 1) hfuel rows
    (fun z => z) (invUF_id _) (knownMids_precond rows)
  rw [hUP.2 x y]
  constructor
  · apply eqvGen_bind
    intro u v huv
    rcases huv with huv | huv
    · exact Relation.EqvGen.rel u v ((pairsOf_mem_iff rows u v).mp huv)
    · rw [rootUF_id, rootUF_id] at huv
      rw [huv]
      exact Relation.EqvGen.refl v
  · apply eqvGen_bind
    intro u v huv
    exact Relation.EqvGen.rel u v (Or.inl ((pairsOf_mem_iff rows u v).mpr huv))

/-- The thread id computed for a raw `message_id` value: `""` for an
empty cleaned id, otherwise the union-find root of the cleaned id after
the union pass. -/
def threadRoot (rows : List (Nat × String × String)) (mid : String) : String :=
  if clean_mid mid = "" then ""
  else
    rootUF ((knownMids rows).card + 1)
      (unionPass ((knownMids rows).card + 1) (knownMids rows) (fun z => z) rows)
      (clean_mid mid)

theorem compute_thread_ids_eq (rows : List (Nat × String × String)) :
    compute_thread_ids rows = rows.map (fun r => (threadRoot rows r.2.1, r.1)) := by
  have hfuel : (knownMids rows).card < (knownMids rows).card + 1 := by omega
  have hUP := unionPass_spec (knownMids rows) ((knownMids rows).card + 1) hfuel rows
    (fun z => z) (invUF_id _) (knownMids_precond rows)
  rw [compute_thread_ids,
    assignPass_spec (knownMids rows) ((knownMids rows).card + 1) hfuel rows _ hUP.1]
  rfl

/-- C2: after thread resolution, the emitted `(thread_id, id)` pairs are
exactly the per-row `threadRoot` values; two rows with non-empty cleaned
message ids receive the same thread id precisely when their ids are
connected by a chain of direct in-reply-to edges (taken in either
direction) whose endpoints all occur in the archive; and a row whose
cleaned message id is empty receives the empty thread id. -/
theorem C2_thread_groups (rows : List (Nat × String × String)) :
    compute_thread_ids rows = rows.map (fun r => (threadRoot rows r.2.1, r.1)) ∧
    (∀ a b : Nat × String × String, a ∈ rows → b ∈ rows →
      clean_mid a.2.1 ≠ "" → clean_mid b.2.1 ≠ "" →
      (threadRoot rows a.2.1 = threadRoot rows b.2.1 ↔
        Relation.EqvGen (midEdge rows) (clean_mid a.2.1) (clean_mid b.2.1))) ∧
    (∀ mid : String, clean_mid mid = "" → threadRoot rows mid = "") := by
  refine ⟨compute_thread_ids_eq rows, ?_, ?_⟩
  · intro a b _ _ ha hb
    rw [threadRoot, if_neg ha, threadRoot, if_neg hb]
    exact rootEq_iff_connected rows (clean_mid a.2.1) (clean_mid b.2.1)
  · intro mid hmid
    rw [threadRoot, if_pos hmid]

/-- Witness for C2: a two-row archive where the second row replies to the
first; the claim theorem yields equal thread ids from the reply edge. -/
theorem C2_witness :
    threadRoot [(1, "<a>", ""), (2, "<b>", "<a>")] "<a>" =
      threadRoot [(1, "<a>", ""), (2, "<b>", "<a>")] "<b>" :=
  ((C2_thread_groups [(1, "<a>", ""), (2, "<b>", "<a>")]).2.1
    (1, "<a>", "") (2, "<b>", "<a>")
    (by decide) (by decide) (by decide) (by decide)).mpr
    (Relation.EqvGen.symm _ _ (Relation.EqvGen.rel _ _
      ⟨by decide, by decide, ⟨(2, "<b>", "<a>"), by decide, rfl, rfl⟩⟩))

/-- C10: every non-empty thread id stored by the thread pass is itself
the cleaned message id of some row of the index — never a phantom
identifier absent from the archive. -/
theorem C10_thread_id_is_known_mid (rows : List (Nat × String × String))
    (pr : String × Nat) (hpr : pr ∈ compute_thread_ids rows) (hne : pr.1 ≠ "") :
    ∃ r ∈ rows, clean_mid r.2.1 = pr.1 := by
  rw [compute_thread_ids_eq rows] at hpr
  obtain ⟨r, hr, hpr2⟩ := List.mem_map.mp hpr
  have h1 : pr.1 = threadRoot rows r.2.1 := by rw [← hpr2]
  by_cases hmid : clean_mid r.2.1 = ""
  · rw [threadRoot, if_pos hmid] at h1
    exact absurd h1 hne
  · rw [threadRoot, if_neg hmid] at h1
    have hfuel : (knownMids rows).card < (knownMids rows).card + 1 := by omega
    have hUP := unionPass_spec (knownMids rows) ((knownMids rows).card + 1) hfuel rows
      (fun z => z) (invUF_id _) (knownMids_precond rows)
    have hmidK : clean_mid r.2.1 ∈ knownMids rows :=
      (knownMids_mem rows _).mpr ⟨hmid, r, hr, rfl⟩
    have hrootK := rootUF_mem (knownMids rows) _ hUP.1 ((knownMids rows).card + 1)
      hfuel (clean_mid r.2.1) hmidK
    rw [h1]
    exact ((knownMids_mem rows _).mp hrootK).2

/-- Witness for C10 at a one-row archive. -/
theorem C10_witness :
    ∃ r ∈ [((1 : Nat), "<a>", "")], clean_mid r.2.1 = (("a", (1 : Nat)) : String × Nat).1 :=
  C10_thread_id_is_known_mid [(1, "<a>", "")] ("a", 1) (by decide) (by decide)

end SearchEmail
